import Mathlib

/-!
# Error-chain printers (package `printer`)

A shallow embedding of `printer/printer.go` and a verification of its
specification.

Conventions of the embedding.

* A Go `string` is a sequence of bytes.  The printers only concatenate strings,
  compare them for equality and search one inside another, so a string is
  embedded as a list of symbols (`List Char`); every symbol stands for one byte.
* A Go `error` value is an element of `GoError`: an `Error()` text, an optional
  `StackTrace()` and an optional `Cause()`.  A nil interface value is `none`.
* A run-time panic (index or slice out of range) is the result `none` of a
  function into `Option`; a value `some v` is a normal return of `v`.
* Go `int` values that can become negative are embedded as `Int`.
-/

set_option autoImplicit false

namespace Printer

/-- A Go string, as its sequence of bytes. -/
abbrev GoString := List Char

/-- The type `errors.Frame` (a program counter): an opaque comparable token. -/
abbrev Frame := Nat

/-- The type `errors.StackTrace`, a slice of frames. -/
abbrev StackTrace := List Frame

/-- An error value with the capabilities the printers look at.
`leaf` has no `Cause()` method, `nilCause` has a `Cause()` method that returns
nil, `wrap` has a `Cause()` method that returns the given error.  The second
argument is `some st` exactly when the value has a `StackTrace()` method. -/
inductive GoError where
  | leaf (msg : GoString) (stack : Option StackTrace)
  | nilCause (msg : GoString) (stack : Option StackTrace)
  | wrap (msg : GoString) (stack : Option StackTrace) (cause : GoError)
  deriving DecidableEq, Repr

namespace GoError

/-- The method `Error()`. -/
def Error : GoError → GoString
  | leaf m _ => m
  | nilCause m _ => m
  | wrap m _ _ => m

/-- The type assertion `e.(stackTracer)` together with `StackTrace()`. -/
def StackTrace? : GoError → Option StackTrace
  | leaf _ s => s
  | nilCause _ s => s
  | wrap _ s _ => s

/-- Whether the type assertion `e.(causer)` succeeds. -/
def isCauser : GoError → Bool
  | leaf _ _ => false
  | nilCause _ _ => true
  | wrap _ _ _ => true

/-- Whether the type assertion `e.(stackTracer)` succeeds. -/
def isStackTracer (e : GoError) : Bool := e.StackTrace?.isSome

end GoError

/-- The local type `errWithStack` of both printers. -/
structure errWithStack where
  err : GoError
  msg : GoString
  stack : StackTrace
  deriving DecidableEq, Repr

/-- The formatting collaborators: `fmt.Sprintf("%+v", err)` for an error value
(possibly nil) and `fmt.Sprintf("%+v", stack)` for a stack trace. -/
structure Formatter where
  verboseFormat : Option GoError → GoString
  verboseStack : StackTrace → GoString

/-- Checked indexing `xs[i]` with an `int` index: `none` is the out-of-range panic. -/
def index? {α : Type} (xs : List α) (i : Int) : Option α :=
  if 0 ≤ i then xs[i.toNat]? else none

/-- Checked slicing `xs[lo:hi]`: `none` is the out-of-range panic.  (Go allows
`hi` up to the capacity of a slice; the bound by the length used here is the
stricter one.) -/
def slice? {α : Type} (xs : List α) (lo hi : Int) : Option (List α) :=
  if 0 ≤ lo ∧ lo ≤ hi ∧ hi ≤ (xs.length : Int) then
    some ((xs.take hi.toNat).drop lo.toNat)
  else none

/-- The descending search of `strings.LastIndex` (Go standard library, embedded
by its contract): the greatest candidate position at or below the given one at
which `substr` occurs in `s`, or `-1`. -/
def lastIndexFrom (s substr : GoString) : Nat → Int
  | 0 => if substr.isPrefixOf s then 0 else -1
  | i + 1 =>
    if substr.isPrefixOf (s.drop (i + 1)) then ((i + 1 : Nat) : Int)
    else lastIndexFrom s substr i

/-- The function `strings.LastIndex(s, substr)`: the index of the last
occurrence of `substr` in `s`, or `-1` when there is none. -/
def stringsLastIndex (s substr : GoString) : Int :=
  if s.length < substr.length then -1
  else lastIndexFrom s substr (s.length - substr.length)

/-- The function `strings.Join(elems, sep)`. -/
def stringsJoin : List GoString → GoString → GoString
  | [], _ => []
  | [a], _ => a
  | a :: b :: rest, sep => a ++ sep ++ stringsJoin (b :: rest) sep

/-- The separator `": "` of `currErrMsg`. -/
def colonSpace : GoString := [':', ' ']

/-- The separator `"\n"` of the final `strings.Join`. -/
def newline : GoString := [Char.ofNat 10]

/-- The function `currErrMsg` (printer.go, lines 156-162). -/
def currErrMsg (curr next : GoError) : Option GoString :=
  let msg := curr.Error
  let idx := stringsLastIndex msg (colonSpace ++ next.Error)
  if idx ≠ -1 then slice? msg 0 idx else some msg

/-- The loop of `hasSuffix` (printer.go, lines 168-174), started at the cursors
`outerIndex` and `innerIndex`; the result is the pair of cursors at loop exit.
The first argument bounds the number of condition checks; `none` is a panic or
an exhausted bound. -/
def hasSuffixLoop (inner outer : StackTrace) : Nat → Int → Int → Option (Int × Int)
  | 0, _, _ => none
  | fuel + 1, outerIndex, innerIndex =>
    if 0 ≤ outerIndex ∧ 0 ≤ innerIndex then
      match index? outer outerIndex, index? inner innerIndex with
      | some o, some i =>
        if o ≠ i then some (outerIndex, innerIndex)
        else hasSuffixLoop inner outer fuel (outerIndex - 1) (innerIndex - 1)
      | _, _ => none
    else some (outerIndex, innerIndex)

/-- The function `hasSuffix` (printer.go, lines 165-176). -/
def hasSuffix (inner outer : StackTrace) : Option Bool :=
  match hasSuffixLoop inner outer (outer.length + 1)
      ((outer.length : Int) - 1) ((inner.length : Int) - 1) with
  | some (outerIndex, innerIndex) => some (outerIndex == 0 && decide (0 ≤ innerIndex))
  | none => none

/-- The statement `stackErrs = append(stackErrs, errWithStack{...})` under the
guard `errCause.(stackTracer)` (printer.go, lines 30-36 and 102-109). -/
def appendLayer (stackErrs : List errWithStack) (errCause : GoError) : List errWithStack :=
  match errCause.StackTrace? with
  | some s => stackErrs ++ [{ err := errCause, msg := errCause.Error, stack := s }]
  | none => stackErrs

/-- The chain walk of `PrintSingleStack` (printer.go, lines 29-42) from a non-nil
`errCause`; the result is `stackErrs` and `errCause` at loop exit. -/
def walkLoop (stackErrs : List errWithStack) : GoError → List errWithStack × Option GoError
  | .leaf m s => (appendLayer stackErrs (.leaf m s), some (.leaf m s))
  | .nilCause m s => (appendLayer stackErrs (.nilCause m s), none)
  | .wrap m s c => walkLoop (appendLayer stackErrs (.wrap m s c)) c

/-- The chain walk of `PrintStackWithMessages` (printer.go, lines 101-122) from a
non-nil `errCause`; the result is `stackErrs` and `errCause` at loop exit. -/
def alternateLoop (expectStackTracer : Bool) (stackErrs : List errWithStack) :
    GoError → List errWithStack × Option GoError
  | .leaf m s => (appendLayer stackErrs (.leaf m s), some (.leaf m s))
  | .nilCause m s =>
    if (GoError.nilCause m s).isStackTracer ≠ expectStackTracer then
      ([], some (.nilCause m s))
    else (appendLayer stackErrs (.nilCause m s), none)
  | .wrap m s c =>
    if (GoError.wrap m s c).isStackTracer ≠ expectStackTracer then
      ([], some (.wrap m s c))
    else alternateLoop (!expectStackTracer) (appendLayer stackErrs (.wrap m s c)) c

/-- The loop computing `singleStack` (printer.go, lines 48-54), entered with the
loop variable `i`; the result is the final value of `singleStack`. -/
def singleStackLoop (stackErrs : List errWithStack) : Nat → Option Bool
  | 0 => some true
  | i + 1 =>
    match stackErrs[i + 1]?, stackErrs[i]? with
    | some a, some b =>
      match hasSuffix a.stack b.stack with
      | some true => singleStackLoop stackErrs i
      | some false => some false
      | none => none
    | _, _ => none

/-- The trimming loop of `PrintStackWithMessages` (printer.go, lines 128-133),
entered with the loop variable `i`. -/
def trimLoop : List errWithStack → Nat → Option (List errWithStack)
  | stackErrs, 0 => some stackErrs
  | stackErrs, i + 1 =>
    match stackErrs[i + 1]?, stackErrs[i]? with
    | some a, some b =>
      match hasSuffix a.stack b.stack with
      | some true =>
        match slice? a.stack 0 ((a.stack.length : Int) - (b.stack.length : Int)) with
        | some t => trimLoop (stackErrs.set (i + 1) { a with stack := t }) i
        | none => none
      | some false => trimLoop stackErrs i
      | none => none
    | _, _ => none

/-- One iteration of the message loop (printer.go, lines 61 and 136):
`stackErrs[i].msg = currErrMsg(stackErrs[i].err, stackErrs[i+1].err)`. -/
def msgStep (stackErrs : List errWithStack) (i : Nat) : Option (List errWithStack) :=
  match stackErrs[i]?, stackErrs[i + 1]? with
  | some a, some b =>
    match currErrMsg a.err b.err with
    | some m => some (stackErrs.set i { a with msg := m })
    | none => none
  | _, _ => none

/-- The message loop `for i := 0; i < len(stackErrs) - 1; i++` (printer.go,
lines 60-62 and 135-137): `i` runs over `0, ..., len(stackErrs) - 2`, and over
nothing when `len(stackErrs) ≤ 1`. -/
def msgLoop (stackErrs : List errWithStack) : Option (List errWithStack) :=
  (List.range (stackErrs.length - 1)).foldlM msgStep stackErrs

/-- The block `if errCause != nil { ... }` (printer.go, lines 65-72 and 140-147);
the result is `stackErrs` and `errs` after it. -/
def rootStep (stackErrs : List errWithStack) (errCause : Option GoError) :
    Option (List errWithStack × List GoString) :=
  match errCause with
  | none => some (stackErrs, [])
  | some root =>
    match index? stackErrs ((stackErrs.length : Int) - 1) with
    | some last =>
      match currErrMsg last.err root with
      | some m =>
        let stackErrs1 := stackErrs.set (stackErrs.length - 1) { last with msg := m }
        let rootErr := root.Error
        match index? stackErrs1 ((stackErrs1.length : Int) - 1) with
        | some last1 =>
          if rootErr ≠ last1.msg then some (stackErrs1, [root.Error])
          else some (stackErrs1, [])
        | none => none
      | none => none
    | none => none

/-- The output loop `for i := len(stackErrs)-1; i >= 0; i--` (printer.go, lines
73-75 and 148-150), appending `render stackErrs[i]` to `errs`. -/
def collectLoop (render : errWithStack → GoString) (stackErrs : List errWithStack)
    (errs : List GoString) : Option (List GoString) :=
  (List.range stackErrs.length).reverse.foldlM
    (fun errs i =>
      match stackErrs[i]? with
      | some a => some (errs ++ [render a])
      | none => none)
    errs

/-- The statement `errCause := err` followed by the chain walk of
`PrintSingleStack`. -/
def walk : Option GoError → List errWithStack × Option GoError
  | none => ([], none)
  | some e => walkLoop [] e

/-- The statement `errCause := err` followed by the chain walk of
`PrintStackWithMessages`, with `expectStackTracer := true`. -/
def alternateWalk : Option GoError → List errWithStack × Option GoError
  | none => ([], none)
  | some e => alternateLoop true [] e

/-- The function `PrintSingleStack` (printer.go, lines 14-77).  The loop at line
49 starts at `i = len(stackErrs) - 1`, which is not negative there, since the
case `len(stackErrs) == 0` has returned at line 45. -/
def PrintSingleStack (fmt : Formatter) (err : Option GoError) : Option GoString :=
  match walk err with
  | (stackErrs, errCause) =>
    if stackErrs.length = 0 then some (fmt.verboseFormat err)
    else
      match singleStackLoop stackErrs (stackErrs.length - 1) with
      | none => none
      | some false => some (fmt.verboseFormat err)
      | some true =>
        match msgLoop stackErrs with
        | none => none
        | some stackErrs1 =>
          match rootStep stackErrs1 errCause with
          | none => none
          | some (stackErrs2, errs) =>
            match collectLoop (fun a => a.msg) stackErrs2 errs with
            | none => none
            | some errs1 =>
              match index? stackErrs2 ((stackErrs2.length : Int) - 1) with
              | none => none
              | some last => some (stringsJoin errs1 newline ++ fmt.verboseStack last.stack)

/-- The function `PrintStackWithMessages` (printer.go, lines 84-152).  The loop
at line 128 starts at `i = len(stackErrs) - 1`, which is not negative there,
since the case `len(stackErrs) == 0` has returned at line 125. -/
def PrintStackWithMessages (fmt : Formatter) (err : Option GoError) : Option GoString :=
  match alternateWalk err with
  | (stackErrs, errCause) =>
    if stackErrs.length = 0 then some (fmt.verboseFormat err)
    else
      match trimLoop stackErrs (stackErrs.length - 1) with
      | none => none
      | some stackErrs0 =>
        match msgLoop stackErrs0 with
        | none => none
        | some stackErrs1 =>
          match rootStep stackErrs1 errCause with
          | none => none
          | some (stackErrs2, errs) =>
            match collectLoop (fun a => a.msg ++ fmt.verboseStack a.stack) stackErrs2 errs with
            | none => none
            | some errs1 => some (stringsJoin errs1 newline)

/-! ## Sample values -/

/-- A sample formatter: a stack is rendered as one line per frame (a line feed
and the letter numbered by the frame), an error as `Error()` followed by its
stack, after the rendering of its cause. -/
def sampleStack (st : StackTrace) : GoString :=
  st.flatMap (fun f => [Char.ofNat 10, Char.ofNat (97 + f)])

/-- The error part of the sample formatter. -/
def sampleError : GoError → GoString
  | .leaf m s => m ++ sampleStack (s.getD [])
  | .nilCause m s => m ++ sampleStack (s.getD [])
  | .wrap m s c => sampleError c ++ newline ++ m ++ sampleStack (s.getD [])

/-- The sample formatter. -/
def sampleFormatter : Formatter where
  verboseFormat := fun e => match e with
    | none => "<nil>".toList
    | some e => sampleError e
  verboseStack := sampleStack

/-- The plain root error `io.EOF`. -/
def eofError : GoError := .leaf "EOF".toList none

/-- The error `Wrap(EOF, "failed to open foo")` in the shape of package errors: a
stack layer over a message layer over the root.  Frame 0 is the call site in
`openFile`, frame 1 the call of `openFile` in `parseFile`, frame 3 the caller of
`parseFile`. -/
def openFileError : GoError :=
  .wrap "failed to open foo: EOF".toList (some [0, 1, 3])
    (.wrap "failed to open foo: EOF".toList none eofError)

/-- The chain `Wrap(Wrap(EOF, "failed to open foo"), "failed to parse file")`.
Frame 2 is the call site of the second `Wrap` in `parseFile`. -/
def sampleChain : GoError :=
  .wrap "failed to parse file: failed to open foo: EOF".toList (some [2, 3])
    (.wrap "failed to parse file: failed to open foo: EOF".toList none openFileError)

/-- The inner layer of `sampleChain`. -/
def openFileLayer : errWithStack :=
  { err := openFileError, msg := openFileError.Error, stack := [0, 1, 3] }

/-- The inner error of `channelChain`: its stack (frames 0 and 9) was captured in
another goroutine. -/
def channelInnerError : GoError :=
  .wrap "failed to open foo in channel: EOF".toList (some [0, 9])
    (.wrap "failed to open foo in channel: EOF".toList none eofError)

/-- The chain of `loadConfigInChannel` cut to two wraps: the inner stack shares
no tail with the outer stack (frames 2 and 3). -/
def channelChain : GoError :=
  .wrap "failed to parse file: failed to open foo in channel: EOF".toList (some [2, 3])
    (.wrap "failed to parse file: failed to open foo in channel: EOF".toList none
      channelInnerError)

/-- The outer layer of `channelChain`. -/
def channelOuterLayer : errWithStack :=
  { err := channelChain, msg := channelChain.Error, stack := [2, 3] }

/-- The inner layer of `channelChain`. -/
def channelInnerLayer : errWithStack :=
  { err := channelInnerError, msg := channelInnerError.Error, stack := [0, 9] }

/-- The chain `WithMessage(EOF, "failed to load config")`: a causer without
stack trace at position 0. -/
def messageChain : GoError :=
  .wrap "failed to load config: EOF".toList none eofError

/-- The chain of `loadConfig()` in the shape of package errors:
`Wrap(Wrap(Wrap(EOF, "failed to open foo"), "failed to parse file"), "failed to
load config")`.  Frame 0 is the call site of `Wrap` in `openFile`, frames 1 and
2 are the call of `openFile` and the call site of `Wrap` in `parseFile`, frames
3 and 4 the call of `parseFile` and the call site of `Wrap` in `loadConfig`,
frame 5 the caller of `loadConfig`. -/
def loadConfigChain : GoError :=
  .wrap "failed to load config: failed to parse file: failed to open foo: EOF".toList
    (some [4, 5])
    (.wrap "failed to load config: failed to parse file: failed to open foo: EOF".toList none
      (.wrap "failed to parse file: failed to open foo: EOF".toList (some [2, 3, 5])
        (.wrap "failed to parse file: failed to open foo: EOF".toList none
          (.wrap "failed to open foo: EOF".toList (some [0, 1, 3, 5])
            (.wrap "failed to open foo: EOF".toList none eofError)))))

/-- The innermost layer of `loadConfigChain`. -/
def loadConfigInnerLayer : errWithStack :=
  { err := .wrap "failed to open foo: EOF".toList (some [0, 1, 3, 5])
      (.wrap "failed to open foo: EOF".toList none eofError),
    msg := "failed to open foo: EOF".toList,
    stack := [0, 1, 3, 5] }

/-- The root `New("EOF")` of package errors: a stack trace and no `Cause()`. -/
def stackRootError : GoError := .leaf "EOF".toList (some [0, 1, 2])

/-- The chain `WithStack(New("EOF"))`: the wrapper has the text of its cause. -/
def stackRootChain : GoError := .wrap "EOF".toList (some [3, 2]) stackRootError

/-! ## Vocabulary of the specification -/

/-- The errors of a chain, outermost first: the values `errCause` takes when
`Cause()` is followed until an error without `Cause()` or a nil cause. -/
def chainOf : GoError → List GoError
  | .leaf m s => [.leaf m s]
  | .nilCause m s => [.nilCause m s]
  | .wrap m s c => .wrap m s c :: chainOf c

/-- The root of a chain: its last error when that error has no `Cause()`, nil
when the last `Cause()` returns nil. -/
def rootOf : GoError → Option GoError
  | .leaf m s => some (.leaf m s)
  | .nilCause _ _ => none
  | .wrap _ _ c => rootOf c

/-- The layer of a stack-bearing error: the error, its `Error()` text and its
frames; `none` for an error without stack trace. -/
def toLayer (e : GoError) : Option errWithStack :=
  match e.StackTrace? with
  | some s => some { err := e, msg := e.Error, stack := s }
  | none => none

/-- The layers of a chain: its stack-bearing errors in outer-to-inner order. -/
def layersOf (e : GoError) : List errWithStack :=
  (chainOf e).filterMap toLayer

/-- The alternation assumption: every error of the chain that exposes `Cause()`
is stack-bearing exactly when expected, the expectation flipping at each step. -/
def alternatesFrom (expect : Bool) : GoError → Bool
  | .leaf _ _ => true
  | .nilCause m s => (GoError.nilCause m s).isStackTracer == expect
  | .wrap m s c =>
    ((GoError.wrap m s c).isStackTracer == expect) && alternatesFrom (!expect) c

/-- The recomputed messages `m_0 .. m_{n-1}` of the layer errors `L_0 .. L_{n-1}`:
`m_i = currErrMsg(L_i, L_{i+1})` below the last layer and
`m_{n-1} = currErrMsg(L_{n-1}, root)`, or `L_{n-1}.Error()` when the root is nil. -/
def layerMessages : List GoError → Option GoError → Option (List GoString)
  | [], _ => some []
  | [a], none => some [a.Error]
  | [a], some r =>
    match currErrMsg a r with
    | some m => some [m]
    | none => none
  | a :: b :: rest, r =>
    match currErrMsg a b, layerMessages (b :: rest) r with
    | some m, some ms => some (m :: ms)
    | _, _ => none

/-- The optional first line of the output: `root.Error()` when the root is
non-nil and its text differs from the last recomputed message. -/
def rootLine (root : Option GoError) (lastMsg : Option GoString) : List GoString :=
  match root with
  | none => []
  | some r => if some r.Error ≠ lastMsg then [r.Error] else []

/-- The frames printed for a layer with frames `inner` whose outer neighbour has
frames `outer`: `inner` without its last `len(outer)` frames when
`hasSuffix(inner, outer)` holds, `inner` otherwise. -/
def trimAgainst (outer inner : StackTrace) : StackTrace :=
  if hasSuffix inner outer = some true then inner.take (inner.length - outer.length)
  else inner

/-- The frames `t_0 .. t_{n-1}` printed for layers with frames `s_0 .. s_{n-1}`:
`t_0 = s_0` and `t_i = trimAgainst s_{i-1} s_i`. -/
def trimmedStacks : List StackTrace → List StackTrace
  | [] => []
  | a :: rest => a :: List.zipWith trimAgainst (a :: rest) rest

/-- The total form of `currErrMsg`: the text it returns. -/
def localMsg (curr next : GoError) : GoString :=
  if stringsLastIndex curr.Error (colonSpace ++ next.Error) ≠ -1 then
    curr.Error.take (stringsLastIndex curr.Error (colonSpace ++ next.Error)).toNat
  else curr.Error

/-- The layers after the message loop: every layer but the last carries its
message recomputed against the next layer. -/
def withLocalMsgs : List errWithStack → List errWithStack
  | [] => []
  | [a] => [a]
  | a :: b :: rest => { a with msg := localMsg a.err b.err } :: withLocalMsgs (b :: rest)

/-- The layers after the message loop and the root block: the last layer
carries its message recomputed against a non-nil root. -/
def finalLayers : List errWithStack → Option GoError → List errWithStack
  | [], _ => []
  | [a], none => [a]
  | [a], some r => [{ a with msg := localMsg a.err r }]
  | a :: b :: rest, root =>
    { a with msg := localMsg a.err b.err } :: finalLayers (b :: rest) root

/-- A layer with its frames trimmed against its outer neighbour. -/
def trimLayer (outer inner : errWithStack) : errWithStack :=
  { inner with stack := trimAgainst outer.stack inner.stack }

/-- The layers after the trimming loop. -/
def trimmedLayers : List errWithStack → List errWithStack
  | [] => []
  | a :: rest => a :: List.zipWith trimLayer (a :: rest) rest

/-- The number of equal leading elements of two sequences. -/
def commonHead : List Frame → List Frame → Nat
  | a :: as, b :: bs => if a = b then commonHead as bs + 1 else 0
  | _, _ => 0

/-- The overlap length of two frame sequences: the number of matched trailing
frames. -/
def overlapLength (inner outer : StackTrace) : Nat :=
  commonHead inner.reverse outer.reverse

/-- Whether `hasSuffix` accepts every adjacent pair of layers (inner against
outer). -/
def acceptedPairs : List errWithStack → Bool
  | a :: b :: rest => (hasSuffix b.stack a.stack == some true) && acceptedPairs (b :: rest)
  | _ => true

/-! ## The suffix check -/

theorem index?_natCast {α : Type} (xs : List α) (n : Nat) :
    index? xs (n : Int) = xs[n]? := by
  simp [index?]

theorem index?_neg {α : Type} (xs : List α) (i : Int) (h : i < 0) :
    index? xs i = none := by
  simp [index?, h]

theorem index?_append_cons {α : Type} (xs ys : List α) (a : α) :
    index? (xs ++ a :: ys) (xs.length : Int) = some a := by
  rw [index?_natCast, List.getElem?_append_right (Nat.le_refl _)]
  simp

/-- One iteration of the loop of `hasSuffix` on two equal frames. -/
theorem hasSuffixLoop_step (o1 i1 t : StackTrace) (c : Frame) (fuel : Nat) :
    hasSuffixLoop (i1 ++ c :: t) (o1 ++ c :: t) (fuel + 1) (o1.length : Int) (i1.length : Int)
      = hasSuffixLoop (i1 ++ c :: t) (o1 ++ c :: t) fuel
          ((o1.length : Int) - 1) ((i1.length : Int) - 1) := by
  rw [hasSuffixLoop]
  have h1 : (0 : Int) ≤ (o1.length : Int) ∧ (0 : Int) ≤ (i1.length : Int) :=
    ⟨Int.ofNat_nonneg _, Int.ofNat_nonneg _⟩
  rw [if_pos h1, index?_append_cons, index?_append_cons]
  simp

/-- The loop of `hasSuffix` runs through a common tail `s`. -/
theorem hasSuffixLoop_skip (s : StackTrace) :
    ∀ (o1 i1 t : StackTrace) (fuel : Nat),
      hasSuffixLoop (i1 ++ (s ++ t)) (o1 ++ (s ++ t)) (fuel + s.length)
          (((o1.length + s.length : Nat) : Int) - 1) (((i1.length + s.length : Nat) : Int) - 1)
        = hasSuffixLoop (i1 ++ (s ++ t)) (o1 ++ (s ++ t)) fuel
            ((o1.length : Int) - 1) ((i1.length : Int) - 1) := by
  induction s using List.reverseRecOn with
  | nil => intro o1 i1 t fuel; simp
  | append_singleton s c ih =>
    intro o1 i1 t fuel
    have e1 : i1 ++ (s ++ [c] ++ t) = (i1 ++ s) ++ c :: t := by simp
    have e2 : o1 ++ (s ++ [c] ++ t) = (o1 ++ s) ++ c :: t := by simp
    have e3 : (((o1.length + (s ++ [c]).length : Nat) : Int) - 1) = ((o1 ++ s).length : Int) := by
      simp; omega
    have e4 : (((i1.length + (s ++ [c]).length : Nat) : Int) - 1) = ((i1 ++ s).length : Int) := by
      simp; omega
    have e5 : fuel + (s ++ [c]).length = (fuel + s.length) + 1 := by simp; omega
    rw [e1, e2, e3, e4, e5, hasSuffixLoop_step]
    have ih1 := ih o1 i1 (c :: t) fuel
    have e6 : i1 ++ (s ++ c :: t) = (i1 ++ s) ++ c :: t := by simp
    have e7 : o1 ++ (s ++ c :: t) = (o1 ++ s) ++ c :: t := by simp
    rw [e6, e7] at ih1
    rw [← ih1]
    simp

/-- Any two frame sequences split into a common tail and two heads that are
empty or end in different frames. -/
theorem common_tail_split (outer : StackTrace) :
    ∀ inner : StackTrace, ∃ o1 i1 s : StackTrace,
      outer = o1 ++ s ∧ inner = i1 ++ s ∧
        (o1 = [] ∨ i1 = [] ∨
          ∃ o2 a i2 b, o1 = o2 ++ [a] ∧ i1 = i2 ++ [b] ∧ a ≠ b) := by
  induction outer using List.reverseRecOn with
  | nil => intro inner; exact ⟨[], inner, [], by simp, by simp, Or.inl rfl⟩
  | append_singleton o a ih =>
    intro inner
    rcases List.eq_nil_or_concat inner with h | ⟨i, b, h⟩
    · exact ⟨o ++ [a], [], [], by simp, by simp [h], Or.inr (Or.inl rfl)⟩
    · subst h
      by_cases hab : a = b
      · subst hab
        obtain ⟨o1, i1, s, ho, hi, hstop⟩ := ih i
        exact ⟨o1, i1, s ++ [a], by simp [ho], by simp [hi], hstop⟩
      · exact ⟨o ++ [a], i ++ [b], [], by simp, by simp,
          Or.inr (Or.inr ⟨o, a, i, b, rfl, rfl, hab⟩)⟩

/-- The value of `hasSuffix` in terms of the split along the common tail. -/
theorem hasSuffix_split (o1 i1 s : StackTrace)
    (hstop : o1 = [] ∨ i1 = [] ∨ ∃ o2 a i2 b, o1 = o2 ++ [a] ∧ i1 = i2 ++ [b] ∧ a ≠ b) :
    hasSuffix (i1 ++ s) (o1 ++ s) = some (decide (o1.length = 1) && decide (i1 ≠ [])) := by
  unfold hasSuffix
  have hskip := hasSuffixLoop_skip s o1 i1 [] (o1.length + 1)
  simp only [List.append_nil] at hskip
  have e1 : (o1 ++ s).length + 1 = o1.length + 1 + s.length := by simp; omega
  have e2 : (((o1 ++ s).length : Nat) : Int) = ((o1.length + s.length : Nat) : Int) := by simp
  have e3 : (((i1 ++ s).length : Nat) : Int) = ((i1.length + s.length : Nat) : Int) := by simp
  rw [e1, e2, e3, hskip]
  rcases hstop with h | h | ⟨o2, a, i2, b, ho, hi, hab⟩
  · subst h
    simp [hasSuffixLoop]
  · subst h
    simp [hasSuffixLoop]
  · subst ho hi
    have hs : hasSuffixLoop (i2 ++ [b] ++ s) (o2 ++ [a] ++ s) ((o2 ++ [a]).length + 1)
        (((o2 ++ [a]).length : Int) - 1) (((i2 ++ [b]).length : Int) - 1)
        = some ((o2.length : Int), (i2.length : Int)) := by
      have e4 : (((o2 ++ [a]).length : Int) - 1) = (o2.length : Int) := by simp
      have e5 : (((i2 ++ [b]).length : Int) - 1) = (i2.length : Int) := by simp
      have e6 : i2 ++ [b] ++ s = i2 ++ b :: s := by simp
      have e7 : o2 ++ [a] ++ s = o2 ++ a :: s := by simp
      rw [e4, e5, e6, e7, hasSuffixLoop]
      have h1 : (0 : Int) ≤ (o2.length : Int) ∧ (0 : Int) ≤ (i2.length : Int) :=
        ⟨Int.ofNat_nonneg _, Int.ofNat_nonneg _⟩
      rw [if_pos h1, index?_append_cons, index?_append_cons]
      simp [hab]
    rw [hs]
    cases o2 with
    | nil => simp
    | cons c o3 =>
      simp
      omega

/-- The function `hasSuffix` returns normally on all inputs. -/
theorem hasSuffix_total (inner outer : StackTrace) :
    ∃ b, hasSuffix inner outer = some b := by
  obtain ⟨o1, i1, s, ho, hi, hstop⟩ := common_tail_split outer inner
  subst ho hi
  exact ⟨_, hasSuffix_split o1 i1 s hstop⟩

/-- The inputs accepted by `hasSuffix`: the outer sequence is one frame `y`
followed by a tail of the inner sequence, whose frame before that tail is not `y`. -/
theorem hasSuffix_true_iff (inner outer : StackTrace) :
    hasSuffix inner outer = some true ↔
      ∃ p x y t, inner = p ++ x :: t ∧ outer = y :: t ∧ x ≠ y := by
  constructor
  · intro h
    obtain ⟨o1, i1, s, ho, hi, hstop⟩ := common_tail_split outer inner
    subst ho hi
    rw [hasSuffix_split o1 i1 s hstop] at h
    simp at h
    obtain ⟨hlen, hne⟩ := h
    rcases hstop with h0 | h0 | ⟨o2, a, i2, b, ho, hi, hab⟩
    · subst h0; simp at hlen
    · exact absurd h0 hne
    · subst ho hi
      have : o2 = [] := by
        simp at hlen
        exact hlen
      subst this
      exact ⟨i2, b, a, s, by simp, by simp, fun h => hab h.symm⟩
  · rintro ⟨p, x, y, t, hi, ho, hxy⟩
    subst hi ho
    have := hasSuffix_split [y] (p ++ [x]) t
      (Or.inr (Or.inr ⟨[], y, p, x, by simp, rfl, fun h => hxy h.symm⟩))
    simpa using this

/-- A sequence that really ends with `outer` is rejected by `hasSuffix`. -/
theorem hasSuffix_append_self (p outer : StackTrace) :
    hasSuffix (p ++ outer) outer = some false := by
  have := hasSuffix_split [] p outer (Or.inl rfl)
  simpa using this

/-- When `hasSuffix` accepts, the inner sequence is at least as long as the outer. -/
theorem hasSuffix_length_le (inner outer : StackTrace) (h : hasSuffix inner outer = some true) :
    outer.length ≤ inner.length := by
  obtain ⟨p, x, y, t, hi, ho, _⟩ := (hasSuffix_true_iff inner outer).mp h
  subst hi ho
  simp

/-! ## The message trimmer -/

theorem isPrefixOf_append_self (sub rest : GoString) : sub.isPrefixOf (sub ++ rest) = true := by
  induction sub with
  | nil => simp [List.isPrefixOf]
  | cons a sub ih => simp [List.isPrefixOf, ih]

theorem lastIndexFrom_range (s substr : GoString) (n : Nat) :
    lastIndexFrom s substr n = -1 ∨
      (0 ≤ lastIndexFrom s substr n ∧ lastIndexFrom s substr n ≤ (n : Int)) := by
  induction n with
  | zero =>
    unfold lastIndexFrom
    split <;> simp
  | succ n ih =>
    unfold lastIndexFrom
    split
    · right; omega
    · rcases ih with h | h
      · left; exact h
      · right; omega

theorem stringsLastIndex_range (s substr : GoString) :
    stringsLastIndex s substr = -1 ∨
      (0 ≤ stringsLastIndex s substr ∧ stringsLastIndex s substr ≤ (s.length : Int)) := by
  unfold stringsLastIndex
  split
  · left; rfl
  · rcases lastIndexFrom_range s substr (s.length - substr.length) with h | h
    · left; exact h
    · right; omega

/-- When `s` ends with `substr`, the last occurrence is the final one. -/
theorem stringsLastIndex_append (p substr : GoString) :
    stringsLastIndex (p ++ substr) substr = (p.length : Int) := by
  unfold stringsLastIndex
  have h1 : ¬ (p ++ substr).length < substr.length := by simp
  rw [if_neg h1]
  have h2 : (p ++ substr).length - substr.length = p.length := by simp
  rw [h2]
  cases p with
  | nil =>
    simp only [List.length_nil, List.nil_append, lastIndexFrom]
    have := isPrefixOf_append_self substr []
    simp only [List.append_nil] at this
    simp [this]
  | cons a p =>
    simp only [List.length_cons, lastIndexFrom]
    have h3 : List.drop (p.length + 1) (a :: p ++ substr) = substr := by simp
    rw [h3]
    have := isPrefixOf_append_self substr []
    simp only [List.append_nil] at this
    simp [this]

/-- The descending search finds an occurrence at or above every occurrence
within its range. -/
theorem lastIndexFrom_ge (s substr : GoString) (k : Nat)
    (hk : substr.isPrefixOf (s.drop k) = true) :
    ∀ n, k ≤ n → (k : Int) ≤ lastIndexFrom s substr n := by
  intro n
  induction n with
  | zero =>
    intro h
    have h0 : k = 0 := by omega
    subst h0
    simp only [List.drop_zero] at hk
    simp [lastIndexFrom, hk]
  | succ n ih =>
    intro h
    unfold lastIndexFrom
    split
    · omega
    · rename_i hno
      have hne : k ≠ n + 1 := by
        intro hc
        subst hc
        exact hno hk
      exact ih (by omega)

/-- An occurrence of `substr` anywhere in `s` is found by `strings.LastIndex`. -/
theorem stringsLastIndex_of_occurrence (p substr q : GoString) :
    (p.length : Int) ≤ stringsLastIndex (p ++ substr ++ q) substr := by
  unfold stringsLastIndex
  have h1 : ¬ (p ++ substr ++ q).length < substr.length := by
    simp only [List.length_append]
    omega
  rw [if_neg h1]
  apply lastIndexFrom_ge
  · have : List.drop p.length (p ++ substr ++ q) = substr ++ q := by
      rw [List.append_assoc, List.drop_left]
    rw [this]
    exact isPrefixOf_append_self substr q
  · simp only [List.length_append]
    omega

/-- The function `currErrMsg` returns normally on all inputs. -/
theorem currErrMsg_eq (curr next : GoError) :
    currErrMsg curr next = some (localMsg curr next) := by
  unfold currErrMsg localMsg
  simp only
  split
  · rename_i h
    rcases stringsLastIndex_range curr.Error (colonSpace ++ next.Error) with h1 | h1
    · exact absurd h1 h
    · simp [slice?, h1]
  · rfl

/-! ## The chain walks -/

theorem appendLayer_eq (acc : List errWithStack) (e : GoError) :
    appendLayer acc e = acc ++ (toLayer e).toList := by
  unfold appendLayer toLayer
  cases e.StackTrace? <;> simp

theorem layersOf_wrap (m : GoString) (s : Option StackTrace) (c : GoError) :
    layersOf (.wrap m s c) = (toLayer (.wrap m s c)).toList ++ layersOf c := by
  unfold layersOf
  simp only [chainOf, List.filterMap_cons]
  cases toLayer (.wrap m s c) <;> simp

theorem layersOf_leaf (m : GoString) (s : Option StackTrace) :
    layersOf (.leaf m s) = (toLayer (.leaf m s)).toList := by
  unfold layersOf
  simp only [chainOf, List.filterMap_cons]
  cases toLayer (.leaf m s) <;> simp

theorem layersOf_nilCause (m : GoString) (s : Option StackTrace) :
    layersOf (.nilCause m s) = (toLayer (.nilCause m s)).toList := by
  unfold layersOf
  simp only [chainOf, List.filterMap_cons]
  cases toLayer (.nilCause m s) <;> simp

/-- The walk of `PrintSingleStack` collects the layers and ends at the root. -/
theorem walkLoop_eq (e : GoError) :
    ∀ acc : List errWithStack, walkLoop acc e = (acc ++ layersOf e, rootOf e) := by
  induction e with
  | leaf m s => intro acc; simp [walkLoop, appendLayer_eq, layersOf_leaf, rootOf]
  | nilCause m s => intro acc; simp [walkLoop, appendLayer_eq, layersOf_nilCause, rootOf]
  | wrap m s c ih =>
    intro acc
    simp [walkLoop, ih, appendLayer_eq, layersOf_wrap, rootOf]

/-- On a chain that alternates, the walk of `PrintStackWithMessages` collects the
layers and ends at the root. -/
theorem alternateLoop_eq (e : GoError) :
    ∀ (b : Bool) (acc : List errWithStack), alternatesFrom b e = true →
      alternateLoop b acc e = (acc ++ layersOf e, rootOf e) := by
  induction e with
  | leaf m s => intro b acc _; simp [alternateLoop, appendLayer_eq, layersOf_leaf, rootOf]
  | nilCause m s =>
    intro b acc h
    simp only [alternatesFrom, beq_iff_eq] at h
    simp [alternateLoop, h, appendLayer_eq, layersOf_nilCause, rootOf]
  | wrap m s c ih =>
    intro b acc h
    simp only [alternatesFrom, Bool.and_eq_true, beq_iff_eq] at h
    simp [alternateLoop, h.1, ih _ _ h.2, appendLayer_eq, layersOf_wrap, rootOf]

/-- The walk of `PrintStackWithMessages` keeps no layer on a chain that does
not alternate. -/
theorem alternateLoop_not (e : GoError) :
    ∀ (b : Bool) (acc : List errWithStack), alternatesFrom b e = false →
      (alternateLoop b acc e).1 = [] := by
  induction e with
  | leaf m s => intro b acc h; simp [alternatesFrom] at h
  | nilCause m s =>
    intro b acc h
    simp only [alternatesFrom, beq_eq_false_iff_ne, ne_eq] at h
    simp [alternateLoop, h]
  | wrap m s c ih =>
    intro b acc h
    simp only [alternatesFrom, Bool.and_eq_false_iff, beq_eq_false_iff_ne, ne_eq] at h
    by_cases hb : (GoError.wrap m s c).isStackTracer = b
    · rcases h with h | h
      · exact absurd hb h
      · simp [alternateLoop, hb, ih _ _ h]
    · simp [alternateLoop, hb]

/-- A causer at position `k` whose stack-bearing-ness differs from the
expectation at `k` breaks the alternation. -/
theorem alternatesFrom_false_of_violation (e : GoError) :
    ∀ (b : Bool) (k : Nat) (x : GoError), (chainOf e)[k]? = some x → x.isCauser = true →
      x.isStackTracer ≠ (if k % 2 = 0 then b else !b) → alternatesFrom b e = false := by
  induction e with
  | leaf m s =>
    intro b k x hk hc _
    cases k with
    | zero =>
      simp [chainOf] at hk
      subst hk
      simp [GoError.isCauser] at hc
    | succ k => simp [chainOf] at hk
  | nilCause m s =>
    intro b k x hk _ hv
    cases k with
    | zero =>
      simp [chainOf] at hk
      subst hk
      simpa [alternatesFrom] using hv
    | succ k => simp [chainOf] at hk
  | wrap m s c ih =>
    intro b k x hk hc hv
    cases k with
    | zero =>
      simp [chainOf] at hk
      subst hk
      simp only [alternatesFrom, Bool.and_eq_false_iff, beq_eq_false_iff_ne, ne_eq]
      left
      simpa using hv
    | succ k =>
      simp only [chainOf, List.getElem?_cons_succ] at hk
      simp only [alternatesFrom, Bool.and_eq_false_iff]
      right
      apply ih (!b) k x hk hc
      have h2 : (k + 1) % 2 = 0 ↔ ¬ (k % 2 = 0) := by omega
      by_cases hk2 : k % 2 = 0
      · have h3 : ¬ ((k + 1) % 2 = 0) := by omega
        simpa [hk2, h3] using hv
      · have h3 : (k + 1) % 2 = 0 := by omega
        simpa [hk2, h3] using hv

/-- Without stack-bearing error the chain has no layer. -/
theorem layersOf_eq_nil (e : GoError) (h : ∀ x ∈ chainOf e, x.isStackTracer = false) :
    layersOf e = [] := by
  unfold layersOf
  rw [List.filterMap_eq_nil_iff]
  intro x hx
  have := h x hx
  unfold GoError.isStackTracer at this
  unfold toLayer
  cases hs : x.StackTrace? with
  | none => rfl
  | some st => simp [hs] at this

/-- The layers kept by the walk of `PrintStackWithMessages`. -/
theorem alternateLoop_layers (e : GoError) (b : Bool) :
    (alternateLoop b [] e).1 = [] ∨ alternateLoop b [] e = (layersOf e, rootOf e) := by
  cases h : alternatesFrom b e with
  | false => left; exact alternateLoop_not e b [] h
  | true => right; simpa using alternateLoop_eq e b [] h

/-! ## The single-stack check -/

/-- The check passes when every adjacent pair is accepted by `hasSuffix`. -/
theorem singleStackLoop_true (L : List errWithStack)
    (h : ∀ i a b, L[i]? = some a → L[i + 1]? = some b → hasSuffix b.stack a.stack = some true) :
    ∀ n, n < L.length → singleStackLoop L n = some true := by
  intro n
  induction n with
  | zero => intro _; rfl
  | succ n ih =>
    intro hn
    have h1 : L[n + 1]? = some L[n + 1] := List.getElem?_eq_getElem hn
    have h2 : L[n]? = some (L[n]) := List.getElem?_eq_getElem (by omega)
    rw [singleStackLoop, h1, h2]
    simp only
    rw [h n _ _ h2 h1]
    exact ih (by omega)

/-- The check fails when some adjacent pair is rejected by `hasSuffix`. -/
theorem singleStackLoop_false (L : List errWithStack) (i : Nat) (a b : errWithStack)
    (ha : L[i]? = some a) (hb : L[i + 1]? = some b)
    (hf : hasSuffix b.stack a.stack = some false) :
    ∀ n, i < n → n < L.length → singleStackLoop L n = some false := by
  intro n
  induction n with
  | zero => intro h; omega
  | succ n ih =>
    intro hi hn
    have h1 : L[n + 1]? = some L[n + 1] := List.getElem?_eq_getElem hn
    have h2 : L[n]? = some (L[n]) := List.getElem?_eq_getElem (by omega)
    rw [singleStackLoop, h1, h2]
    simp only
    obtain ⟨v, hv⟩ := hasSuffix_total (L[n + 1]).stack (L[n]).stack
    rw [hv]
    cases v with
    | false => rfl
    | true =>
      simp only
      apply ih _ (by omega)
      by_contra hcon
      have hin : i = n := by omega
      subst hin
      rw [h1] at hb
      rw [h2] at ha
      cases ha
      cases hb
      rw [hv] at hf
      cases hf

/-! ## The message loop, the root block and the output loop -/

theorem msgStep_cons (x : errWithStack) (S : List errWithStack) (i : Nat) :
    msgStep (x :: S) (i + 1) = (msgStep S i).map (fun S1 => x :: S1) := by
  unfold msgStep
  simp only [List.getElem?_cons_succ]
  cases S[i]? with
  | none => rfl
  | some a =>
    cases S[i + 1]? with
    | none => rfl
    | some b =>
      simp only
      cases currErrMsg a.err b.err with
      | none => rfl
      | some m => simp

theorem foldlM_msgStep_cons (x : errWithStack) (is : List Nat) :
    ∀ S : List errWithStack,
      List.foldlM msgStep (x :: S) (is.map (fun i => i + 1))
        = (List.foldlM msgStep S is).map (fun S1 => x :: S1) := by
  induction is with
  | nil => intro S; simp
  | cons i is ih =>
    intro S
    simp only [List.map_cons, List.foldlM_cons, msgStep_cons]
    cases msgStep S i with
    | none => rfl
    | some S1 => simpa using ih S1

/-- The message loop returns normally, with the recomputed messages. -/
theorem msgLoop_eq (L : List errWithStack) : msgLoop L = some (withLocalMsgs L) := by
  induction L with
  | nil => rfl
  | cons a L ih =>
    cases L with
    | nil => rfl
    | cons b rest =>
      unfold msgLoop at ih ⊢
      have e1 : (a :: b :: rest).length - 1 = rest.length + 1 := by simp
      have e2 : (b :: rest).length - 1 = rest.length := by simp
      rw [e2] at ih
      rw [e1, List.range_succ_eq_map, List.foldlM_cons]
      have hstep : msgStep (a :: b :: rest) 0
          = some ({ a with msg := localMsg a.err b.err } :: b :: rest) := by
        simp [msgStep, currErrMsg_eq]
      rw [hstep]
      have := foldlM_msgStep_cons { a with msg := localMsg a.err b.err } (List.range rest.length)
        (b :: rest)
      simp only [Option.bind_eq_bind, Option.some_bind]
      have e3 : List.map Nat.succ (List.range rest.length)
          = List.map (fun i => i + 1) (List.range rest.length) := rfl
      rw [e3, this, ih]
      rfl

theorem withLocalMsgs_ne_nil (L : List errWithStack) (h : L ≠ []) : withLocalMsgs L ≠ [] := by
  cases L with
  | nil => exact absurd rfl h
  | cons a L => cases L <;> simp [withLocalMsgs]

theorem index?_last_cons {α : Type} (x : α) (S : List α) (h : S ≠ []) :
    index? (x :: S) (((x :: S).length : Int) - 1) = index? S ((S.length : Int) - 1) := by
  cases S with
  | nil => exact absurd rfl h
  | cons y S =>
    have e1 : (((x :: y :: S).length : Int) - 1) = ((S.length + 1 : Nat) : Int) := by
      simp
    have e2 : (((y :: S).length : Int) - 1) = ((S.length : Nat) : Int) := by simp
    rw [e1, e2, index?_natCast, index?_natCast]
    simp

theorem index?_last_singleton {α : Type} (x : α) :
    index? [x] ((([x] : List α).length : Int) - 1) = some x := by
  simp [index?]

theorem rootStep_cons (x : errWithStack) (S : List errWithStack) (h : S ≠ [])
    (root : Option GoError) :
    rootStep (x :: S) root = (rootStep S root).map (fun r => (x :: r.1, r.2)) := by
  cases root with
  | none => rfl
  | some r =>
    unfold rootStep
    simp only
    rw [index?_last_cons x S h]
    cases hl : index? S ((S.length : Int) - 1) with
    | none => rfl
    | some last =>
      simp only
      cases currErrMsg last.err r with
      | none => rfl
      | some m =>
        simp only
        have hlen : (x :: S).length - 1 = (S.length - 1) + 1 := by
          cases S with
          | nil => exact absurd rfl h
          | cons y S => simp
        rw [hlen, List.set_cons_succ]
        have hne : S.set (S.length - 1) { last with msg := m } ≠ [] := by
          intro hc
          apply h
          have := congrArg List.length hc
          simp at this
          exact this
        rw [index?_last_cons x _ hne]
        cases index? (S.set (S.length - 1) { last with msg := m })
            (((S.set (S.length - 1) { last with msg := m }).length : Int) - 1) with
        | none => rfl
        | some last1 =>
          simp only
          split <;> rfl

/-- The root block after the message loop returns normally. -/
theorem rootStep_withLocalMsgs (L : List errWithStack) (h : L ≠ []) (root : Option GoError) :
    rootStep (withLocalMsgs L) root
      = some (finalLayers L root,
          rootLine root ((finalLayers L root).getLast?.map (fun a => a.msg))) := by
  induction L with
  | nil => exact absurd rfl h
  | cons a L ih =>
    cases L with
    | nil =>
      cases root with
      | none => rfl
      | some r =>
        simp only [withLocalMsgs, finalLayers, rootStep, index?_last_singleton, currErrMsg_eq,
          List.length_singleton, List.set_cons_zero, rootLine, List.getLast?_singleton,
          Option.map_some']
        simp only [Nat.sub_self, List.set_cons_zero, index?_last_singleton]
        have h0 : index? [a] (0 : Int) = some a := by simp [index?]
        by_cases hr : r.Error = localMsg a.err r
        · simp [hr, h0]
        · simp [hr, h0]
    | cons b rest =>
      have hne : b :: rest ≠ [] := by simp
      have ih1 := ih hne
      simp only [withLocalMsgs, finalLayers]
      rw [rootStep_cons _ _ (withLocalMsgs_ne_nil _ hne), ih1]
      have hfl : finalLayers (b :: rest) root ≠ [] := by
        cases rest with
        | nil => cases root <;> simp [finalLayers]
        | cons c rest => simp [finalLayers]
      simp [List.getLast?_cons_cons, hfl]
      cases hfl2 : finalLayers (b :: rest) root with
      | nil => exact absurd hfl2 hfl
      | cons c cs => simp [List.getLast?_cons_cons]

theorem filterMap_range_getElem? {α β : Type} (f : α → β) (L : List α) :
    (List.range L.length).filterMap (fun i => (L[i]?).map f) = L.map f := by
  induction L using List.reverseRecOn with
  | nil => rfl
  | append_singleton L a ih =>
    rw [List.length_append, List.length_singleton, List.range_succ, List.filterMap_append]
    have h1 : List.filterMap (fun i => ((L ++ [a])[i]?).map f) (List.range L.length)
        = List.filterMap (fun i => (L[i]?).map f) (List.range L.length) := by
      apply List.filterMap_congr
      intro i hi
      rw [List.mem_range] at hi
      rw [List.getElem?_append_left hi]
    rw [h1, ih]
    simp

theorem collect_foldlM (render : errWithStack → GoString) (L : List errWithStack)
    (is : List Nat) :
    ∀ errs : List GoString, (∀ i ∈ is, i < L.length) →
      is.foldlM (fun errs i =>
          match L[i]? with
          | some a => some (errs ++ [render a])
          | none => none) errs
        = some (errs ++ is.filterMap (fun i => (L[i]?).map render)) := by
  induction is with
  | nil => intro errs _; simp
  | cons i is ih =>
    intro errs h
    have hi : i < L.length := h i (List.mem_cons_self _ _)
    have h1 : L[i]? = some L[i] := List.getElem?_eq_getElem hi
    rw [List.foldlM_cons, h1]
    simp only [Option.bind_eq_bind, Option.some_bind]
    rw [ih _ (fun j hj => h j (List.mem_cons_of_mem _ hj))]
    simp [h1]

/-- The output loop returns normally: it appends the rendered layers, last
layer first. -/
theorem collectLoop_eq (render : errWithStack → GoString) (L : List errWithStack)
    (errs : List GoString) :
    collectLoop render L errs = some (errs ++ (L.map render).reverse) := by
  unfold collectLoop
  rw [collect_foldlM render L _ errs]
  · rw [List.filterMap_reverse, filterMap_range_getElem?]
  · intro i hi
    simpa using hi

/-! ## The trimming loop -/

theorem slice?_zero {α : Type} (xs : List α) (n : Nat) (h : n ≤ xs.length) :
    slice? xs 0 (n : Int) = some (xs.take n) := by
  unfold slice?
  have h1 : (0 : Int) ≤ 0 ∧ (0 : Int) ≤ (n : Int) ∧ (n : Int) ≤ (xs.length : Int) :=
    ⟨Int.le_refl 0, Int.ofNat_nonneg n, Int.ofNat_le.mpr h⟩
  rw [if_pos h1]
  simp

theorem set_append_cons {α : Type} (A B : List α) (x v : α) :
    (A ++ x :: B).set A.length v = A ++ v :: B := by
  induction A with
  | nil => rfl
  | cons a A ih => simp [ih]

theorem set_of_getElem? {α : Type} (l : List α) :
    ∀ (i : Nat) (a : α), l[i]? = some a → l.set i a = l := by
  induction l with
  | nil => intro i a h; rfl
  | cons x l ih =>
    intro i a h
    cases i with
    | zero => simp at h; simp [h]
    | succ i => simp at h; simp [ih i a h]

theorem take_succ_append_drop {α : Type} (L T : List α) (k : Nat) (b v : α)
    (hb : L[k]? = some b) (hv : T[k]? = some v) :
    (L.take (k + 1) ++ T.drop (k + 1)).set k v = L.take k ++ T.drop k := by
  have hk : k < L.length := by
    rcases Nat.lt_or_ge k L.length with h | h
    · exact h
    · rw [List.getElem?_eq_none h] at hb; cases hb
  have hkT : k < T.length := by
    rcases Nat.lt_or_ge k T.length with h | h
    · exact h
    · rw [List.getElem?_eq_none h] at hv; cases hv
  have e1 : L.take (k + 1) = L.take k ++ [b] := by
    rw [List.take_succ, hb]; rfl
  have e2 : T.drop k = v :: T.drop (k + 1) := by
    rw [List.drop_eq_getElem_cons hkT]
    rw [List.getElem?_eq_getElem hkT] at hv
    cases hv
    rfl
  have e3 : (L.take k).length = k := by
    rw [List.length_take]; omega
  rw [e1, e2, List.append_assoc, List.singleton_append]
  have := set_append_cons (L.take k) (T.drop (k + 1)) b v
  rw [e3] at this
  exact this

theorem trimmedLayers_length (L : List errWithStack) : (trimmedLayers L).length = L.length := by
  cases L with
  | nil => rfl
  | cons a rest => simp [trimmedLayers]

theorem trimmedLayers_getElem?_succ (L : List errWithStack) (i : Nat) (a b : errWithStack)
    (ha : L[i]? = some a) (hb : L[i + 1]? = some b) :
    (trimmedLayers L)[i + 1]? = some (trimLayer a b) := by
  cases L with
  | nil => simp at ha
  | cons x rest =>
    simp only [List.getElem?_cons_succ] at hb
    simp only [trimmedLayers, List.getElem?_cons_succ, List.getElem?_zipWith, ha, hb]

theorem trimmedLayers_getElem?_zero (L : List errWithStack) :
    (trimmedLayers L)[0]? = L[0]? := by
  cases L with
  | nil => rfl
  | cons x rest => simp [trimmedLayers]

/-- The state of the trimming loop when its variable is `i`: the layers up to
`i` are as captured, the layers above `i` are trimmed. -/
theorem trimLoop_inv (L : List errWithStack) :
    ∀ i, i < L.length →
      trimLoop (L.take (i + 1) ++ (trimmedLayers L).drop (i + 1)) i = some (trimmedLayers L) := by
  intro i
  induction i with
  | zero =>
    intro h
    rw [trimLoop]
    congr 1
    cases L with
    | nil => simp at h
    | cons x rest => simp [trimmedLayers]
  | succ i ih =>
    intro h
    have hb : L[i + 1]? = some L[i + 1] := List.getElem?_eq_getElem h
    have ha : L[i]? = some (L[i]) := List.getElem?_eq_getElem (by omega)
    have hlen : (L.take (i + 1 + 1)).length = i + 2 := by
      rw [List.length_take]; omega
    have hSb : (L.take (i + 1 + 1) ++ (trimmedLayers L).drop (i + 1 + 1))[i + 1]?
        = some L[i + 1] := by
      rw [List.getElem?_append_left (by omega), List.getElem?_take_of_lt (by omega), hb]
    have hSa : (L.take (i + 1 + 1) ++ (trimmedLayers L).drop (i + 1 + 1))[i]?
        = some (L[i]) := by
      rw [List.getElem?_append_left (by omega), List.getElem?_take_of_lt (by omega), ha]
    have hT := trimmedLayers_getElem?_succ L i _ _ ha hb
    rw [trimLoop, hSb, hSa]
    simp only
    obtain ⟨v, hv⟩ := hasSuffix_total (L[i + 1]).stack (L[i]).stack
    rw [hv]
    cases v with
    | true =>
      simp only
      have hle := hasSuffix_length_le _ _ hv
      have e1 : (((L[i + 1]).stack.length : Int) - ((L[i]).stack.length : Int))
          = (((L[i + 1]).stack.length - (L[i]).stack.length : Nat) : Int) := by
        omega
      rw [e1, slice?_zero _ _ (Nat.sub_le _ _)]
      simp only
      have e2 : ({ L[i + 1] with
            stack := (L[i + 1]).stack.take ((L[i + 1]).stack.length - (L[i]).stack.length) }
          : errWithStack) = trimLayer (L[i]) (L[i + 1]) := by
        simp [trimLayer, trimAgainst, hv]
      rw [e2, take_succ_append_drop L (trimmedLayers L) (i + 1) _ _ hb hT]
      exact ih (by omega)
    | false =>
      simp only
      have e2 : trimLayer (L[i]) (L[i + 1]) = L[i + 1] := by
        simp [trimLayer, trimAgainst, hv]
      rw [e2] at hT
      have := take_succ_append_drop L (trimmedLayers L) (i + 1) _ _ hb hT
      have e3 : (L.take (i + 1 + 1) ++ (trimmedLayers L).drop (i + 1 + 1)).set (i + 1) L[i + 1]
          = L.take (i + 1 + 1) ++ (trimmedLayers L).drop (i + 1 + 1) := by
        exact set_of_getElem? _ _ _ hSb
      rw [e3] at this
      rw [this]
      exact ih (by omega)

/-- The trimming loop returns normally: every layer but the first is trimmed
against the frames, as captured, of its outer neighbour. -/
theorem trimLoop_eq (L : List errWithStack) (h : L ≠ []) :
    trimLoop L (L.length - 1) = some (trimmedLayers L) := by
  have hpos : 0 < L.length := List.length_pos.mpr h
  have := trimLoop_inv L (L.length - 1) (by omega)
  have e1 : L.length - 1 + 1 = L.length := by omega
  rw [e1, List.take_length] at this
  have e2 : (trimmedLayers L).drop L.length = [] := by
    apply List.drop_eq_nil_of_le
    rw [trimmedLayers_length]
  rw [e2, List.append_nil] at this
  exact this

/-! ## Closed forms of the two printers -/

theorem index?_last {α : Type} (X : List α) :
    index? X ((X.length : Int) - 1) = X.getLast? := by
  induction X with
  | nil => simp [index?]
  | cons x X ih =>
    cases X with
    | nil => simp [index?]
    | cons y X =>
      rw [index?_last_cons x (y :: X) (by simp), ih, List.getLast?_cons_cons]

theorem finalLayers_map_stack (L : List errWithStack) (root : Option GoError) :
    (finalLayers L root).map (fun a => a.stack) = L.map (fun a => a.stack) := by
  induction L with
  | nil => rfl
  | cons a L ih =>
    cases L with
    | nil => cases root <;> rfl
    | cons b rest =>
      simp only [finalLayers, List.map_cons] at ih ⊢
      rw [ih]

theorem finalLayers_ne_nil (L : List errWithStack) (root : Option GoError) (h : L ≠ []) :
    finalLayers L root ≠ [] := by
  intro hc
  have := congrArg (List.map (fun a => a.stack)) hc
  rw [finalLayers_map_stack] at this
  simp at this
  exact h this

/-- The messages of the final layers are the recomputed messages. -/
theorem layerMessages_eq (L : List errWithStack)
    (hmsg : L.map (fun a => a.msg) = L.map (fun a => a.err.Error)) (root : Option GoError) :
    layerMessages (L.map (fun a => a.err)) root
      = some ((finalLayers L root).map (fun a => a.msg)) := by
  induction L with
  | nil => rfl
  | cons a L ih =>
    cases L with
    | nil =>
      cases root with
      | none =>
        simp only [List.map_cons, List.map_nil, List.cons.injEq, and_true] at hmsg
        simp [layerMessages, finalLayers, hmsg]
      | some r => simp [layerMessages, finalLayers, currErrMsg_eq]
    | cons b rest =>
      have h2 : (b :: rest).map (fun a => a.msg) = (b :: rest).map (fun a => a.err.Error) := by
        simp only [List.map_cons, List.cons.injEq] at hmsg ⊢
        exact hmsg.2
      have ih1 := ih h2
      simp only [List.map_cons] at ih1
      simp only [List.map_cons, layerMessages, finalLayers, currErrMsg_eq, ih1]

theorem layersOf_msg (e : GoError) :
    (layersOf e).map (fun a => a.msg) = (layersOf e).map (fun a => a.err.Error) := by
  apply List.map_congr_left
  intro a ha
  unfold layersOf at ha
  rw [List.mem_filterMap] at ha
  obtain ⟨x, _, hx⟩ := ha
  unfold toLayer at hx
  cases hs : x.StackTrace? with
  | none => simp [hs] at hx
  | some st =>
    simp [hs] at hx
    subst hx
    rfl

theorem getLast?_map_eq {α β : Type} (f : α → β) (X : List α) :
    (X.map f).getLast? = X.getLast?.map f := by
  induction X with
  | nil => rfl
  | cons x X ih =>
    cases X with
    | nil => rfl
    | cons y X =>
      simp only [List.map_cons, List.getLast?_cons_cons] at ih ⊢
      exact ih

/-- The output of `PrintSingleStack` once the single-stack check has passed. -/
theorem PrintSingleStack_closed (fmt : Formatter) (err : GoError) (last : errWithStack)
    (hlast : (layersOf err).getLast? = some last)
    (hck : singleStackLoop (layersOf err) ((layersOf err).length - 1) = some true) :
    PrintSingleStack fmt (some err)
      = some (stringsJoin
          (rootLine (rootOf err)
              (((finalLayers (layersOf err) (rootOf err)).map (fun a => a.msg)).getLast?)
            ++ ((finalLayers (layersOf err) (rootOf err)).map (fun a => a.msg)).reverse)
          newline ++ fmt.verboseStack last.stack) := by
  have hne : layersOf err ≠ [] := by
    intro hc
    rw [hc] at hlast
    cases hlast
  have hlen : ¬ (layersOf err).length = 0 := by
    intro hc
    exact hne (List.length_eq_zero.mp hc)
  have hst : ((finalLayers (layersOf err) (rootOf err)).getLast?).map (fun a => a.stack)
      = some last.stack := by
    rw [← getLast?_map_eq, finalLayers_map_stack, getLast?_map_eq, hlast]
    rfl
  unfold PrintSingleStack walk
  simp only [walkLoop_eq, List.nil_append]
  rw [if_neg hlen, hck]
  simp only
  rw [msgLoop_eq]
  simp only
  rw [rootStep_withLocalMsgs _ hne]
  simp only
  rw [collectLoop_eq, index?_last]
  cases hF : (finalLayers (layersOf err) (rootOf err)).getLast? with
  | none => rw [hF] at hst; cases hst
  | some l =>
    rw [hF] at hst
    simp only [Option.map_some', Option.some.injEq] at hst
    simp only [getLast?_map_eq, hF, Option.map_some', hst]

theorem zipWith_snd {α β γ : Type} (g : β → γ) :
    ∀ (xs : List α) (ys : List β), ys.length ≤ xs.length →
      List.zipWith (fun _ y => g y) xs ys = ys.map g := by
  intro xs ys
  induction ys generalizing xs with
  | nil => intro _; simp
  | cons y ys ih =>
    intro h
    cases xs with
    | nil => simp at h
    | cons x xs =>
      simp only [List.zipWith_cons_cons, List.map_cons, List.cons.injEq, true_and]
      exact ih xs (by simpa using h)

theorem trimmedLayers_map_err (L : List errWithStack) :
    (trimmedLayers L).map (fun a => a.err) = L.map (fun a => a.err) := by
  cases L with
  | nil => rfl
  | cons a rest =>
    simp only [trimmedLayers, List.map_cons, List.map_zipWith, trimLayer]
    rw [zipWith_snd (fun a => a.err) (a :: rest) rest (by simp)]

theorem trimmedLayers_map_msg (L : List errWithStack) :
    (trimmedLayers L).map (fun a => a.msg) = L.map (fun a => a.msg) := by
  cases L with
  | nil => rfl
  | cons a rest =>
    simp only [trimmedLayers, List.map_cons, List.map_zipWith, trimLayer]
    rw [zipWith_snd (fun a => a.msg) (a :: rest) rest (by simp)]

theorem trimmedLayers_map_stack (L : List errWithStack) :
    (trimmedLayers L).map (fun a => a.stack) = trimmedStacks (L.map (fun a => a.stack)) := by
  cases L with
  | nil => rfl
  | cons a rest =>
    simp only [trimmedLayers, trimmedStacks, List.map_cons, List.map_zipWith, trimLayer]
    rw [← List.map_cons (fun a => a.stack) a rest, List.zipWith_map]

theorem map_eq_zipWith_fields (f : GoString → StackTrace → GoString) (X : List errWithStack) :
    X.map (fun a => f a.msg a.stack)
      = List.zipWith f (X.map (fun a => a.msg)) (X.map (fun a => a.stack)) := by
  induction X with
  | nil => rfl
  | cons x X ih => simp only [List.map_cons, List.zipWith_cons_cons, ih]

/-- The output of `PrintStackWithMessages` once the walk has kept its layers. -/
theorem PrintStackWithMessages_closed (fmt : Formatter) (err : Option GoError)
    (L : List errWithStack) (root : Option GoError)
    (hwalk : alternateWalk err = (L, root)) (hne : L ≠ []) :
    PrintStackWithMessages fmt err
      = some (stringsJoin
          (rootLine root (((finalLayers (trimmedLayers L) root).map (fun a => a.msg)).getLast?)
            ++ (List.zipWith (fun m t => m ++ fmt.verboseStack t)
                  ((finalLayers (trimmedLayers L) root).map (fun a => a.msg))
                  (trimmedStacks (L.map (fun a => a.stack)))).reverse)
          newline) := by
  have hlen : ¬ L.length = 0 := by
    intro hc
    exact hne (List.length_eq_zero.mp hc)
  have hT : trimmedLayers L ≠ [] := by
    intro hc
    have := congrArg List.length hc
    rw [trimmedLayers_length] at this
    exact hlen this
  unfold PrintStackWithMessages
  rw [hwalk]
  simp only
  rw [if_neg hlen, trimLoop_eq L hne]
  simp only
  rw [msgLoop_eq]
  simp only
  rw [rootStep_withLocalMsgs _ hT]
  simp only
  rw [collectLoop_eq, getLast?_map_eq,
    map_eq_zipWith_fields (fun m t => m ++ fmt.verboseStack t),
    finalLayers_map_stack, trimmedLayers_map_stack]

/-- The recomputed messages of the layers kept by a walk over a chain. -/
theorem layerMessages_trimmed (e : GoError) (root : Option GoError) :
    layerMessages ((layersOf e).map (fun a => a.err)) root
      = some ((finalLayers (trimmedLayers (layersOf e)) root).map (fun a => a.msg)) := by
  have h := layerMessages_eq (trimmedLayers (layersOf e)) (by
    have h1 := trimmedLayers_map_err (layersOf e)
    have h2 := trimmedLayers_map_msg (layersOf e)
    have h3 := layersOf_msg e
    rw [h2, h3]
    have h4 := congrArg (List.map GoError.Error) h1
    simp only [List.map_map] at h4
    exact h4.symm) root
  rw [trimmedLayers_map_err] at h
  exact h

theorem trimmedStacks_getElem?_succ (S : List StackTrace) (i : Nat) (a b : StackTrace)
    (ha : S[i]? = some a) (hb : S[i + 1]? = some b) :
    (trimmedStacks S)[i + 1]? = some (trimAgainst a b) := by
  cases S with
  | nil => simp at ha
  | cons x rest =>
    simp only [List.getElem?_cons_succ] at hb
    simp only [trimmedStacks, List.getElem?_cons_succ, List.getElem?_zipWith, ha, hb]

/-- Without kept layer `PrintStackWithMessages` returns the verbose rendering. -/
theorem PrintStackWithMessages_of_walk_nil (fmt : Formatter) (err : Option GoError)
    (h : (alternateWalk err).1 = []) :
    PrintStackWithMessages fmt err = some (fmt.verboseFormat err) := by
  unfold PrintStackWithMessages
  cases hw : alternateWalk err with
  | mk S c =>
    rw [hw] at h
    simp only at h
    subst h
    simp

/-! ## The claims of the specification -/

/-- C1. `PrintSingleStack`, coalesced form.  For a chain with layers
`L_0 .. L_{n-1}` (`n ≥ 1`, the stack-bearing errors, outermost first), a non-nil
root `r` and `hasSuffix(L_i.stack, L_{i-1}.stack)` true for every adjacent pair,
the output is the newline-join of `r.Error()` (only when it differs from
`m_{n-1}`) and `m_{n-1}, ..., m_0`, immediately followed by the verbose rendering
of the stack of `L_{n-1}`, where `m_i = currErrMsg(L_i.err, L_{i+1}.err)` and
`m_{n-1} = currErrMsg(L_{n-1}.err, r)`. -/
theorem PrintSingleStack_coalesced (fmt : Formatter) (err r : GoError) (last : errWithStack)
    (hroot : rootOf err = some r)
    (hlast : (layersOf err).getLast? = some last)
    (hsuf : ∀ i a b, (layersOf err)[i]? = some a → (layersOf err)[i + 1]? = some b →
      hasSuffix b.stack a.stack = some true) :
    ∃ m : List GoString,
      layerMessages ((layersOf err).map (fun a => a.err)) (some r) = some m ∧
      PrintSingleStack fmt (some err)
        = some (stringsJoin
            ((if some r.Error ≠ m.getLast? then [r.Error] else []) ++ m.reverse) newline
            ++ fmt.verboseStack last.stack) := by
  refine ⟨(finalLayers (layersOf err) (some r)).map (fun a => a.msg),
    layerMessages_eq (layersOf err) (layersOf_msg err) (some r), ?_⟩
  have hne : layersOf err ≠ [] := by
    intro hc
    rw [hc] at hlast
    cases hlast
  have hpos : 0 < (layersOf err).length := List.length_pos.mpr hne
  have hck := singleStackLoop_true (layersOf err) hsuf ((layersOf err).length - 1) (by omega)
  rw [PrintSingleStack_closed fmt err last hlast hck, hroot]
  rfl

/-- C2. `PrintStackWithMessages`, interleaved form.  When the alternation walk
keeps its layers `L_0 .. L_{n-1}` (`n ≥ 1`) and ends at a non-nil root `r`, the
output is the newline-join of `r.Error()` (only when it differs from `m_{n-1}`)
and the blocks `m_i ++ verbose(t_i)` for `i = n-1` down to `0`, where `m_i` is
the recomputed message and `t_i` the trimmed frames of layer `i`. -/
theorem PrintStackWithMessages_interleaved (fmt : Formatter) (err r : GoError)
    (L : List errWithStack)
    (hwalk : alternateWalk (some err) = (L, some r)) (hne : L ≠ []) :
    ∃ m : List GoString,
      layerMessages (L.map (fun a => a.err)) (some r) = some m ∧
      PrintStackWithMessages fmt (some err)
        = some (stringsJoin
            ((if some r.Error ≠ m.getLast? then [r.Error] else [])
              ++ (List.zipWith (fun mi ti => mi ++ fmt.verboseStack ti) m
                    (trimmedStacks (L.map (fun a => a.stack)))).reverse)
            newline) := by
  have hL : L = layersOf err := by
    rcases alternateLoop_layers err true with h | h
    · have h1 : (alternateWalk (some err)).1 = [] := h
      rw [hwalk] at h1
      exact absurd h1 hne
    · have h1 : alternateWalk (some err) = (layersOf err, rootOf err) := h
      rw [hwalk] at h1
      exact (Prod.mk.inj h1).1
  subst hL
  refine ⟨(finalLayers (trimmedLayers (layersOf err)) (some r)).map (fun a => a.msg),
    layerMessages_trimmed err (some r), ?_⟩
  rw [PrintStackWithMessages_closed fmt (some err) (layersOf err) (some r) hwalk hne]
  rfl

/-- C3. `PrintSingleStack` falls back on unrelated stacks: when `hasSuffix` is
false on some adjacent pair of layers (inner `L_{i+1}`, outer `L_i`), the output
is exactly the verbose rendering of the original error. -/
theorem PrintSingleStack_fallback_unrelated (fmt : Formatter) (err : GoError) (i : Nat)
    (a b : errWithStack)
    (ha : (layersOf err)[i]? = some a) (hb : (layersOf err)[i + 1]? = some b)
    (hf : hasSuffix b.stack a.stack = some false) :
    PrintSingleStack fmt (some err) = some (fmt.verboseFormat (some err)) := by
  have hlt : i + 1 < (layersOf err).length := by
    rcases Nat.lt_or_ge (i + 1) (layersOf err).length with h | h
    · exact h
    · rw [List.getElem?_eq_none h] at hb; cases hb
  have hlen : ¬ (layersOf err).length = 0 := by omega
  have hck := singleStackLoop_false (layersOf err) i a b ha hb hf
    ((layersOf err).length - 1) (by omega) (by omega)
  unfold PrintSingleStack walk
  simp only [walkLoop_eq, List.nil_append]
  rw [if_neg hlen, hck]

/-- C4. `PrintStackWithMessages` falls back on broken alternation: when the
error at position `k` of the chain exposes `Cause()` and is stack-bearing
otherwise than expected (stack-bearing exactly when `k` is even), the output is
exactly the verbose rendering of the original error. -/
theorem PrintStackWithMessages_fallback_alternation (fmt : Formatter) (err : GoError)
    (k : Nat) (x : GoError)
    (hk : (chainOf err)[k]? = some x) (hc : x.isCauser = true)
    (hv : x.isStackTracer ≠ decide (k % 2 = 0)) :
    PrintStackWithMessages fmt (some err) = some (fmt.verboseFormat (some err)) := by
  have hv2 : x.isStackTracer ≠ (if k % 2 = 0 then true else !true) := by
    by_cases h : k % 2 = 0
    · simpa [h] using hv
    · simpa [h] using hv
  have hnot := alternatesFrom_false_of_violation err true k x hk hc hv2
  exact PrintStackWithMessages_of_walk_nil fmt (some err) (alternateLoop_not err true [] hnot)

/-- C5. No stacks means verbose output: on a chain in which no error exposes a
stack trace, both printers return exactly the verbose rendering of the error. -/
theorem no_stack_verbose (fmt : Formatter) (err : GoError)
    (h : ∀ x ∈ chainOf err, x.isStackTracer = false) :
    PrintSingleStack fmt (some err) = some (fmt.verboseFormat (some err)) ∧
      PrintStackWithMessages fmt (some err) = some (fmt.verboseFormat (some err)) := by
  have hnil := layersOf_eq_nil err h
  constructor
  · unfold PrintSingleStack walk
    simp [walkLoop_eq, hnil]
  · apply PrintStackWithMessages_of_walk_nil
    rcases alternateLoop_layers err true with h1 | h1
    · exact h1
    · have h2 : alternateWalk (some err) = (layersOf err, rootOf err) := h1
      rw [h2, hnil]

/-- C1, witness: the chain `sampleChain` over the root `EOF`. -/
theorem PrintSingleStack_coalesced_witness :
    ∃ m : List GoString,
      layerMessages ((layersOf sampleChain).map (fun a => a.err)) (some eofError) = some m ∧
      PrintSingleStack sampleFormatter (some sampleChain)
        = some (stringsJoin
            ((if some eofError.Error ≠ m.getLast? then [eofError.Error] else []) ++ m.reverse)
            newline
            ++ sampleFormatter.verboseStack openFileLayer.stack) := by
  apply PrintSingleStack_coalesced sampleFormatter sampleChain eofError openFileLayer
  · decide
  · decide
  · intro i a b ha hb
    have hL : layersOf sampleChain
        = [{ err := sampleChain, msg := sampleChain.Error, stack := [2, 3] }, openFileLayer] := by
      decide
    rw [hL] at ha hb
    cases i with
    | zero =>
      simp only [List.getElem?_cons_zero, List.getElem?_cons_succ, Option.some.injEq] at ha hb
      subst ha hb
      decide
    | succ i => simp at hb

/-- C2, witness: the chain `sampleChain`, whose walk keeps two layers. -/
theorem PrintStackWithMessages_interleaved_witness :
    ∃ m : List GoString,
      layerMessages ((layersOf sampleChain).map (fun a => a.err)) (some eofError) = some m ∧
      PrintStackWithMessages sampleFormatter (some sampleChain)
        = some (stringsJoin
            ((if some eofError.Error ≠ m.getLast? then [eofError.Error] else [])
              ++ (List.zipWith (fun mi ti => mi ++ sampleFormatter.verboseStack ti) m
                    (trimmedStacks ((layersOf sampleChain).map (fun a => a.stack)))).reverse)
            newline) :=
  PrintStackWithMessages_interleaved sampleFormatter sampleChain eofError
    (layersOf sampleChain) (by decide) (by decide)

/-- C3, witness: the two stacks of `channelChain` are unrelated. -/
theorem PrintSingleStack_fallback_unrelated_witness :
    PrintSingleStack sampleFormatter (some channelChain)
      = some (sampleFormatter.verboseFormat (some channelChain)) :=
  PrintSingleStack_fallback_unrelated sampleFormatter channelChain 0
    channelOuterLayer channelInnerLayer (by decide) (by decide) (by decide)

/-- C4, witness: the causer at position 0 of `messageChain` has no stack trace. -/
theorem PrintStackWithMessages_fallback_alternation_witness :
    PrintStackWithMessages sampleFormatter (some messageChain)
      = some (sampleFormatter.verboseFormat (some messageChain)) :=
  PrintStackWithMessages_fallback_alternation sampleFormatter messageChain 0 messageChain
    (by decide) (by decide) (by decide)

/-- C5, witness: the single plain root error `EOF`. -/
theorem no_stack_verbose_witness :
    PrintSingleStack sampleFormatter (some eofError)
        = some (sampleFormatter.verboseFormat (some eofError)) ∧
      PrintStackWithMessages sampleFormatter (some eofError)
        = some (sampleFormatter.verboseFormat (some eofError)) :=
  no_stack_verbose sampleFormatter eofError (by decide)

/-- C6, counterexample: `channelChain` alternates as expected and its two stacks
are unrelated by suffix, yet `PrintStackWithMessages` does not return the verbose
rendering of the chain. -/
theorem PrintStackWithMessages_unrelated_not_verbose :
    alternatesFrom true channelChain = true ∧
      (layersOf channelChain)[0]? = some channelOuterLayer ∧
      (layersOf channelChain)[1]? = some channelInnerLayer ∧
      hasSuffix channelInnerLayer.stack channelOuterLayer.stack = some false ∧
      PrintStackWithMessages sampleFormatter (some channelChain)
        = some ("EOF\nfailed to open foo in channel\na\nj\n"
            ++ "failed to parse file\nc\nd").toList ∧
      PrintStackWithMessages sampleFormatter (some channelChain)
        ≠ some (sampleFormatter.verboseFormat (some channelChain)) := by
  decide

/-- C6, amended.  On a chain that alternates as expected and in which
`hasSuffix` is false on an adjacent pair of layers (inner `L_{i+1}`, outer
`L_i`), `PrintStackWithMessages` returns the interleaved view (optional root
line, then the blocks `m_j ++ verbose(t_j)` from the innermost layer to the
outermost), in which the frames `t_{i+1}` of the inner layer of that pair are
its full stack, untrimmed. -/
theorem PrintStackWithMessages_unrelated_interleaved (fmt : Formatter) (err : GoError)
    (i : Nat) (a b : errWithStack)
    (halt : alternatesFrom true err = true)
    (ha : (layersOf err)[i]? = some a) (hb : (layersOf err)[i + 1]? = some b)
    (hf : hasSuffix b.stack a.stack = some false) :
    ∃ m : List GoString,
      layerMessages ((layersOf err).map (fun a => a.err)) (rootOf err) = some m ∧
      (trimmedStacks ((layersOf err).map (fun a => a.stack)))[i + 1]? = some b.stack ∧
      PrintStackWithMessages fmt (some err)
        = some (stringsJoin
            (rootLine (rootOf err) m.getLast?
              ++ (List.zipWith (fun mi ti => mi ++ fmt.verboseStack ti) m
                    (trimmedStacks ((layersOf err).map (fun a => a.stack)))).reverse)
            newline) := by
  have hne : layersOf err ≠ [] := by
    intro hc
    rw [hc] at ha
    simp at ha
  have hwalk : alternateWalk (some err) = (layersOf err, rootOf err) := by
    have := alternateLoop_eq err true [] halt
    simpa using this
  refine ⟨(finalLayers (trimmedLayers (layersOf err)) (rootOf err)).map (fun a => a.msg),
    layerMessages_trimmed err (rootOf err), ?_, ?_⟩
  · have h1 : ((layersOf err).map (fun a => a.stack))[i]? = some a.stack := by
      rw [List.getElem?_map, ha]; rfl
    have h2 : ((layersOf err).map (fun a => a.stack))[i + 1]? = some b.stack := by
      rw [List.getElem?_map, hb]; rfl
    rw [trimmedStacks_getElem?_succ _ i _ _ h1 h2]
    simp [trimAgainst, hf]
  · exact PrintStackWithMessages_closed fmt (some err) (layersOf err) (rootOf err) hwalk hne

/-- C6, witness of the amended claim: the chain `channelChain`. -/
theorem PrintStackWithMessages_unrelated_interleaved_witness :
    ∃ m : List GoString,
      layerMessages ((layersOf channelChain).map (fun a => a.err)) (rootOf channelChain)
        = some m ∧
      (trimmedStacks ((layersOf channelChain).map (fun a => a.stack)))[0 + 1]?
        = some channelInnerLayer.stack ∧
      PrintStackWithMessages sampleFormatter (some channelChain)
        = some (stringsJoin
            (rootLine (rootOf channelChain) m.getLast?
              ++ (List.zipWith (fun mi ti => mi ++ sampleFormatter.verboseStack ti) m
                    (trimmedStacks ((layersOf channelChain).map (fun a => a.stack)))).reverse)
            newline) :=
  PrintStackWithMessages_unrelated_interleaved sampleFormatter channelChain 0
    channelOuterLayer channelInnerLayer (by decide) (by decide) (by decide) (by decide)

/-- C7, evaluation of the code: `hasSuffix` returns false on the inner sequence
`[1, 2, 3]` and the outer sequence `[2, 3]`, and on every inner sequence whose
last frames are the outer sequence, frame for frame. -/
theorem hasSuffix_rejects_true_suffix :
    hasSuffix [1, 2, 3] [2, 3] = some false ∧
      ∀ p outer : StackTrace, hasSuffix (p ++ outer) outer = some false :=
  ⟨by decide, hasSuffix_append_self⟩

/-- C8, counterexample: `hasSuffix` returns true on the equal-length sequences
`[9, 2, 3]` (inner) and `[1, 2, 3]` (outer), which differ in their first frame,
although the inner sequence does not end with the outer one. -/
theorem hasSuffix_accepts_non_suffix :
    hasSuffix [9, 2, 3] [1, 2, 3] = some true ∧ ¬ ([1, 2, 3] <:+ [9, 2, 3]) := by
  decide

/-- C8, amended.  `hasSuffix(inner, outer)` returns true only if `outer` is
non-empty, `inner` is at least as long as `outer`, and `inner` ends, frame for
frame, with the frames of `outer` after its first.  On equal-length sequences
that differ in their first frame it returns true exactly when the two sequences
agree in all later frames. -/
theorem hasSuffix_true_only_if (inner outer : StackTrace)
    (h : hasSuffix inner outer = some true) :
    (outer ≠ [] ∧ outer.length ≤ inner.length ∧ outer.tail <:+ inner) ∧
      ∀ (x y : Frame) (s t : StackTrace), x ≠ y → s.length = t.length →
        (hasSuffix (x :: s) (y :: t) = some true ↔ s = t) := by
  constructor
  · obtain ⟨p, x, y, t, hi, ho, _⟩ := (hasSuffix_true_iff inner outer).mp h
    subst hi ho
    refine ⟨by simp, by simp, ?_⟩
    exact ⟨p ++ [x], by simp⟩
  · intro x y s t hxy hlen
    constructor
    · intro hst
      obtain ⟨p, x1, y1, t1, hi, ho, _⟩ := (hasSuffix_true_iff (x :: s) (y :: t)).mp hst
      simp only [List.cons.injEq] at ho
      obtain ⟨_, ht⟩ := ho
      subst ht
      cases p with
      | nil =>
        simp only [List.nil_append, List.cons.injEq] at hi
        exact hi.2
      | cons c p =>
        have hl := congrArg List.length hi
        simp at hl
        omega
    · intro hst
      subst hst
      exact (hasSuffix_true_iff (x :: s) (y :: s)).mpr ⟨[], x, y, s, rfl, rfl, hxy⟩

/-- C8, witness of the amended claim: the sequences of the counterexample. -/
theorem hasSuffix_true_only_if_witness :
    (([1, 2, 3] : StackTrace) ≠ [] ∧ ([1, 2, 3] : StackTrace).length ≤ [9, 2, 3].length ∧
        ([1, 2, 3] : StackTrace).tail <:+ [9, 2, 3]) ∧
      (hasSuffix [9, 2, 3] [1, 2, 3] = some true ↔ ([2, 3] : StackTrace) = [2, 3]) :=
  ⟨(hasSuffix_true_only_if [9, 2, 3] [1, 2, 3] (by decide)).1,
    (hasSuffix_true_only_if [9, 2, 3] [1, 2, 3] (by decide)).2 9 1 [2, 3] [2, 3]
      (by decide) rfl⟩

/-- C9, evaluation of the code: for `curr.Error() = "read: EOF: retry"` and
`next.Error() = "EOF"` the message does not end with `": EOF"`, and `currErrMsg`
returns `"read"`, not the message.  In general, whenever `": " + next.Error()`
occurs somewhere in `curr.Error()`, `currErrMsg` returns a text shorter than the
message. -/
theorem currErrMsg_cuts_inner_occurrence :
    (¬ ((colonSpace ++ eofError.Error) <:+ "read: EOF: retry".toList) ∧
      currErrMsg (.leaf "read: EOF: retry".toList none) eofError = some "read".toList) ∧
      ∀ (curr next : GoError) (p q : GoString),
        curr.Error = p ++ (colonSpace ++ next.Error) ++ q →
          ∃ m : GoString, currErrMsg curr next = some m ∧ m.length < curr.Error.length := by
  refine ⟨by decide, ?_⟩
  intro curr next p q h
  refine ⟨localMsg curr next, currErrMsg_eq curr next, ?_⟩
  have hocc := stringsLastIndex_of_occurrence p (colonSpace ++ next.Error) q
  rw [← h] at hocc
  have hne : stringsLastIndex curr.Error (colonSpace ++ next.Error) ≠ -1 := by omega
  have hr := stringsLastIndex_range curr.Error (colonSpace ++ next.Error)
  unfold localMsg
  rw [if_pos hne, List.length_take]
  have hsub : 2 ≤ (colonSpace ++ next.Error).length := by
    simp [colonSpace]
  have hupper : stringsLastIndex curr.Error (colonSpace ++ next.Error)
      ≤ ((curr.Error.length - (colonSpace ++ next.Error).length : Nat) : Int) := by
    unfold stringsLastIndex
    split
    · omega
    · rcases lastIndexFrom_range curr.Error (colonSpace ++ next.Error)
          (curr.Error.length - (colonSpace ++ next.Error).length) with h1 | h1
      · omega
      · exact h1.2
  have hlen : (colonSpace ++ next.Error).length ≤ curr.Error.length := by
    rw [h]
    simp only [List.length_append]
    omega
  omega

/-- C10. When `curr.Error()` ends with `": " + next.Error()`, `currErrMsg`
returns the text before that final suffix:
`currErrMsg(curr, next) ++ ": " ++ next.Error() = curr.Error()`. -/
theorem currErrMsg_strips_suffix (curr next : GoError)
    (h : (colonSpace ++ next.Error) <:+ curr.Error) :
    ∃ m : GoString, currErrMsg curr next = some m ∧
      m ++ colonSpace ++ next.Error = curr.Error := by
  obtain ⟨p, hp⟩ := h
  refine ⟨p, ?_, by rw [List.append_assoc]; exact hp⟩
  rw [currErrMsg_eq]
  unfold localMsg
  rw [← hp, stringsLastIndex_append]
  have h1 : ((p.length : Nat) : Int) ≠ -1 := by omega
  rw [if_pos h1]
  simp

/-- C10, witness: the pattern `": EOF"` occurs twice and the last occurrence only
is removed. -/
theorem currErrMsg_strips_suffix_witness :
    ∃ m : GoString,
      currErrMsg (.leaf "open: EOF: EOF".toList none) eofError = some m ∧
        m ++ colonSpace ++ eofError.Error
          = (GoError.leaf "open: EOF: EOF".toList none).Error :=
  currErrMsg_strips_suffix (.leaf "open: EOF: EOF".toList none) eofError
    ⟨"open: EOF".toList, by decide⟩


/-! ## Lengths and overlap of accepted stacks -/

theorem commonHead_append (s u v : List Frame) :
    commonHead (s ++ u) (s ++ v) = s.length + commonHead u v := by
  induction s with
  | nil => simp
  | cons a s ih =>
    have h1 : commonHead (a :: (s ++ u)) (a :: (s ++ v))
        = commonHead (s ++ u) (s ++ v) + 1 := by
      simp [commonHead]
    simp only [List.cons_append, h1, ih, List.length_cons]
    omega

/-- The frames of an accepted outer stack after its first are matched. -/
theorem overlapLength_ge (p t : StackTrace) (x y : Frame) :
    t.length ≤ overlapLength (p ++ x :: t) (y :: t) := by
  unfold overlapLength
  have e1 : (p ++ x :: t).reverse = t.reverse ++ (x :: p.reverse) := by simp
  have e2 : (y :: t).reverse = t.reverse ++ [y] := by simp
  rw [e1, e2, commonHead_append]
  simp

/-- The shape of the frames kept by a trim: the inner stack is the kept frames,
one frame, and the frames of the outer stack after its first. -/
theorem trimAgainst_shape (outer inner : StackTrace) (h : hasSuffix inner outer = some true) :
    ∃ x, trimAgainst outer inner ++ x :: outer.tail = inner ∧
      (trimAgainst outer inner).length + outer.length = inner.length ∧
      outer.length - 1 ≤ overlapLength inner outer := by
  obtain ⟨p, x, y, t, hi, ho, _⟩ := (hasSuffix_true_iff inner outer).mp h
  have htrim : trimAgainst outer inner = p := by
    unfold trimAgainst
    rw [if_pos h, hi, ho]
    simp
  refine ⟨x, ?_, ?_, ?_⟩
  · rw [htrim, hi, ho]; rfl
  · rw [htrim, hi, ho]; simp
  · rw [hi, ho]
    have := overlapLength_ge p t x y
    simpa using this

/-- Along layers whose adjacent pairs are accepted by `hasSuffix`, stacks do not
get shorter inwards. -/
theorem stack_length_mono (L : List errWithStack)
    (h : ∀ i a b, L[i]? = some a → L[i + 1]? = some b → hasSuffix b.stack a.stack = some true) :
    ∀ (d i : Nat) (a b : errWithStack), L[i]? = some a → L[i + d]? = some b →
      a.stack.length ≤ b.stack.length := by
  intro d
  induction d with
  | zero =>
    intro i a b ha hb
    simp only [Nat.add_zero] at hb
    rw [ha] at hb
    cases hb
    exact Nat.le_refl _
  | succ d ih =>
    intro i a b ha hb
    have hlt : i + (d + 1) < L.length := by
      rcases Nat.lt_or_ge (i + (d + 1)) L.length with h1 | h1
      · exact h1
      · rw [List.getElem?_eq_none h1] at hb; cases hb
    have hc : L[i + d]? = some (L[i + d]) := List.getElem?_eq_getElem (by omega)
    have h1 := ih i a _ ha hc
    have h2 := hasSuffix_length_le _ _ (h (i + d) _ b hc hb)
    omega

theorem stack_length_le_last (L : List errWithStack) (last : errWithStack)
    (hlast : L.getLast? = some last)
    (h : ∀ i a b, L[i]? = some a → L[i + 1]? = some b → hasSuffix b.stack a.stack = some true) :
    ∀ a ∈ L, a.stack.length ≤ last.stack.length := by
  intro a ha
  obtain ⟨i, hi, hia⟩ := List.getElem_of_mem ha
  have h1 : L[i]? = some a := by rw [List.getElem?_eq_getElem hi, hia]
  rw [List.getLast?_eq_getElem?] at hlast
  have e : i + (L.length - 1 - i) = L.length - 1 := by omega
  have h2 : L[i + (L.length - 1 - i)]? = some last := by rw [e]; exact hlast
  exact stack_length_mono L h _ i a last h1 h2

/-! ## Normal return of the two printers -/

theorem singleStackLoop_total (L : List errWithStack) :
    ∀ n, n < L.length → ∃ b, singleStackLoop L n = some b := by
  intro n
  induction n with
  | zero => intro _; exact ⟨true, rfl⟩
  | succ n ih =>
    intro hn
    have h1 : L[n + 1]? = some L[n + 1] := List.getElem?_eq_getElem hn
    have h2 : L[n]? = some (L[n]) := List.getElem?_eq_getElem (by omega)
    rw [singleStackLoop, h1, h2]
    simp only
    obtain ⟨v, hv⟩ := hasSuffix_total (L[n + 1]).stack (L[n]).stack
    rw [hv]
    cases v with
    | false => exact ⟨false, rfl⟩
    | true => exact ih (by omega)

/-- The output of `PrintSingleStack` once the single-stack check has failed. -/
theorem PrintSingleStack_of_check_false (fmt : Formatter) (err : GoError)
    (hne : layersOf err ≠ [])
    (hck : singleStackLoop (layersOf err) ((layersOf err).length - 1) = some false) :
    PrintSingleStack fmt (some err) = some (fmt.verboseFormat (some err)) := by
  have hlen : ¬ (layersOf err).length = 0 := by
    intro hc
    exact hne (List.length_eq_zero.mp hc)
  unfold PrintSingleStack walk
  simp only [walkLoop_eq, List.nil_append]
  rw [if_neg hlen, hck]

/-- The function `PrintSingleStack` returns normally on all inputs. -/
theorem PrintSingleStack_total (fmt : Formatter) (err : Option GoError) :
    ∃ out, PrintSingleStack fmt err = some out := by
  cases err with
  | none => exact ⟨fmt.verboseFormat none, by simp [PrintSingleStack, walk]⟩
  | some e =>
    cases hL : (layersOf e).getLast? with
    | none =>
      have hnil : layersOf e = [] := List.getLast?_eq_none_iff.mp hL
      refine ⟨fmt.verboseFormat (some e), ?_⟩
      unfold PrintSingleStack walk
      simp [walkLoop_eq, hnil]
    | some last =>
      have hne : layersOf e ≠ [] := by
        intro hc
        rw [hc] at hL
        cases hL
      have hpos : 0 < (layersOf e).length := List.length_pos.mpr hne
      obtain ⟨b, hb⟩ := singleStackLoop_total (layersOf e) ((layersOf e).length - 1) (by omega)
      cases b with
      | false => exact ⟨_, PrintSingleStack_of_check_false fmt e hne hb⟩
      | true => exact ⟨_, PrintSingleStack_closed fmt e last hL hb⟩

/-- The function `PrintStackWithMessages` returns normally on all inputs. -/
theorem PrintStackWithMessages_total (fmt : Formatter) (err : Option GoError) :
    ∃ out, PrintStackWithMessages fmt err = some out := by
  cases hw : alternateWalk err with
  | mk L root =>
    by_cases hL : L = []
    · refine ⟨_, PrintStackWithMessages_of_walk_nil fmt err ?_⟩
      rw [hw]
      exact hL
    · exact ⟨_, PrintStackWithMessages_closed fmt err L root hw hL⟩

/-- The trimming loop returns normally on every list of layers. -/
theorem trimLoop_eq_all (L : List errWithStack) :
    trimLoop L (L.length - 1) = some (trimmedLayers L) := by
  cases L with
  | nil => rfl
  | cons a rest => exact trimLoop_eq (a :: rest) (by simp)

/-! ## Alternation and the terminal error -/

/-- A chain in which every causer meets the expectation of its position
alternates. -/
theorem alternatesFrom_of_index (e : GoError) :
    ∀ b : Bool,
      (∀ k x, (chainOf e)[k]? = some x → x.isCauser = true →
        x.isStackTracer = (if k % 2 = 0 then b else !b)) →
      alternatesFrom b e = true := by
  induction e with
  | leaf m s => intro b _; rfl
  | nilCause m s =>
    intro b h
    have := h 0 (.nilCause m s) (by simp [chainOf]) rfl
    simpa [alternatesFrom] using this
  | wrap m s c ih =>
    intro b h
    have h0 := h 0 (.wrap m s c) (by simp [chainOf]) rfl
    simp only [alternatesFrom, Bool.and_eq_true, beq_iff_eq]
    refine ⟨by simpa using h0, ih (!b) ?_⟩
    intro k x hk hc
    have h1 := h (k + 1) x (by simpa [chainOf] using hk) hc
    by_cases hk2 : k % 2 = 0
    · have h3 : ¬ ((k + 1) % 2 = 0) := by omega
      simpa [hk2, h3] using h1
    · have h3 : (k + 1) % 2 = 0 := by omega
      simpa [hk2, h3] using h1

/-- A stack-bearing root is the innermost layer of its chain. -/
theorem layersOf_getLast?_of_root (e : GoError) :
    ∀ (r : GoError) (s : StackTrace), rootOf e = some r → r.StackTrace? = some s →
      (layersOf e).getLast? = some { err := r, msg := r.Error, stack := s } := by
  induction e with
  | leaf m st =>
    intro r s hr hs
    simp only [rootOf, Option.some.injEq] at hr
    subst hr
    rw [layersOf_leaf]
    simp [toLayer, hs]
  | nilCause m st => intro r s hr _; simp [rootOf] at hr
  | wrap m st c ih =>
    intro r s hr hs
    simp only [rootOf] at hr
    have h1 := ih r s hr hs
    rw [layersOf_wrap, List.getLast?_append, h1]
    rfl

theorem filterMap_toLayer_map_err (l : List GoError) :
    (l.filterMap toLayer).map (fun a => a.err) = l.filter (fun x => x.isStackTracer) := by
  induction l with
  | nil => rfl
  | cons x l ih =>
    cases hs : x.StackTrace? with
    | none =>
      have h1 : toLayer x = none := by simp [toLayer, hs]
      have h2 : x.isStackTracer = false := by simp [GoError.isStackTracer, hs]
      simp [List.filterMap_cons, h1, h2, ih]
    | some st =>
      have h1 : toLayer x = some { err := x, msg := x.Error, stack := st } := by
        simp [toLayer, hs]
      have h2 : x.isStackTracer = true := by simp [GoError.isStackTracer, hs]
      simp [List.filterMap_cons, h1, h2, ih]

/-! ## The message of a stack-bearing root -/

/-- The text `": " + m` does not occur in `m`. -/
theorem localMsg_self (r : GoError) : localMsg r r = r.Error := by
  unfold localMsg
  have h : stringsLastIndex r.Error (colonSpace ++ r.Error) = -1 := by
    unfold stringsLastIndex
    have hlt : r.Error.length < (colonSpace ++ r.Error).length := by
      simp only [colonSpace, List.length_append, List.length_cons, List.length_nil]
      omega
    rw [if_pos hlt]
  simp [h]

theorem finalLayers_getLast? (L : List errWithStack) (l : errWithStack) (r : GoError)
    (h : L.getLast? = some l) :
    (finalLayers L (some r)).getLast? = some { l with msg := localMsg l.err r } := by
  induction L with
  | nil => cases h
  | cons a L ih =>
    cases L with
    | nil =>
      simp only [List.getLast?_singleton, Option.some.injEq] at h
      subst h
      rfl
    | cons b rest =>
      rw [List.getLast?_cons_cons] at h
      have ih1 := ih h
      simp only [finalLayers]
      cases hF : finalLayers (b :: rest) (some r) with
      | nil => rw [hF] at ih1; cases ih1
      | cons c cs =>
        rw [List.getLast?_cons_cons, ← hF]
        exact ih1

/-- Adjacent pairs of a list, read by position. -/
theorem pairs_of_acceptedPairs (L : List errWithStack) (h : acceptedPairs L = true) :
    ∀ i a b, L[i]? = some a → L[i + 1]? = some b → hasSuffix b.stack a.stack = some true := by
  induction L with
  | nil => intro i a b ha _; simp at ha
  | cons x L ih =>
    cases L with
    | nil => intro i a b _ hb; simp at hb
    | cons y rest =>
      simp only [acceptedPairs, Bool.and_eq_true, beq_iff_eq] at h
      intro i a b ha hb
      cases i with
      | zero =>
        simp only [List.getElem?_cons_zero, List.getElem?_cons_succ, Option.some.injEq,
          Nat.zero_add] at ha hb
        subst ha hb
        exact h.1
      | succ i =>
        rw [List.getElem?_cons_succ] at ha hb
        exact ih h.2 i a b ha hb

/-! ## The claims of the specification, continued -/

/-- C11, counterexample: in `sampleChain` the inner stack `[0, 1, 3]` is trimmed
against the outer stack `[2, 3]` to `[0]`; the two frames removed, `1` and `3`,
are not the frames of the outer stack, and one trailing frame only is matched. -/
theorem trim_removes_unmatched_frame :
    (layersOf sampleChain).map (fun a => a.stack) = [[2, 3], [0, 1, 3]] ∧
      hasSuffix [0, 1, 3] [2, 3] = some true ∧
      (trimLoop (layersOf sampleChain) ((layersOf sampleChain).length - 1)).map
          (fun R => R.map (fun a => a.stack)) = some [[2, 3], [0]] ∧
      ([0] : StackTrace) ++ [2, 3] ≠ [0, 1, 3] ∧
      ([0, 1, 3] : StackTrace).length - ([0] : StackTrace).length = 2 ∧
      overlapLength [0, 1, 3] [2, 3] = 1 := by
  decide

/-- C11, amended.  Whenever layer `i+1` is trimmed against its outer neighbour
`i` (`hasSuffix` holds on their stacks), the frames removed are the last
`len(stack_i)` frames of `stack_{i+1}`: one frame `x`, aligned with the first
frame of `stack_i`, followed by the frames of `stack_i` after its first, so that
`trimmed ++ [x] ++ stack_i[1:] = stack_{i+1}`; the number of frames removed is
`len(stack_i)`, and at least `len(stack_i) - 1` trailing frames are matched. -/
theorem trim_removes_outer_length (L : List errWithStack) (i : Nat) (a b : errWithStack)
    (ha : L[i]? = some a) (hb : L[i + 1]? = some b)
    (hs : hasSuffix b.stack a.stack = some true) :
    ∃ (R : List errWithStack) (t : StackTrace) (x : Frame),
      trimLoop L (L.length - 1) = some R ∧
      (R[i + 1]?).map (fun c => c.stack) = some t ∧
      t ++ x :: a.stack.tail = b.stack ∧
      t.length + a.stack.length = b.stack.length ∧
      a.stack.length - 1 ≤ overlapLength b.stack a.stack := by
  obtain ⟨x, h1, h2, h3⟩ := trimAgainst_shape a.stack b.stack hs
  refine ⟨trimmedLayers L, trimAgainst a.stack b.stack, x, trimLoop_eq_all L, ?_, h1, h2, h3⟩
  rw [trimmedLayers_getElem?_succ L i a b ha hb]
  rfl

/-- C11, witness of the amended claim: the two layers of `sampleChain`. -/
theorem trim_removes_outer_length_witness :
    ∃ (R : List errWithStack) (t : StackTrace) (x : Frame),
      trimLoop (layersOf sampleChain) ((layersOf sampleChain).length - 1) = some R ∧
      (R[0 + 1]?).map (fun c => c.stack) = some t ∧
      t ++ x :: ([2, 3] : StackTrace).tail = openFileLayer.stack ∧
      t.length + ([2, 3] : StackTrace).length = openFileLayer.stack.length ∧
      ([2, 3] : StackTrace).length - 1 ≤ overlapLength openFileLayer.stack [2, 3] :=
  trim_removes_outer_length (layersOf sampleChain) 0
    { err := sampleChain, msg := sampleChain.Error, stack := [2, 3] } openFileLayer
    (by decide) (by decide) (by decide)

/-- C12, counterexample: for `EOF` wrapped three times on one shared stack,
`PrintSingleStack` prints the root line and the messages innermost first, not
the three messages outermost first. -/
theorem PrintSingleStack_prints_innermost_first :
    PrintSingleStack sampleFormatter (some loadConfigChain)
        = some ("EOF\nfailed to open foo\nfailed to parse file\nfailed to load config"
            ++ "\na\nb\nd\nf").toList ∧
      PrintSingleStack sampleFormatter (some loadConfigChain)
        ≠ some ("failed to load config\nfailed to parse file\nfailed to open foo"
            ++ "\na\nb\nd\nf").toList := by
  decide

/-- C12, amended.  On a chain that satisfies the single-stack condition, the
recomputed messages appear in inner-to-outer order: the output is the optional
root line, then `m_{n-1}, ..., m_0` (innermost first, outermost last), then one
stack block, the stack of the innermost layer. -/
theorem PrintSingleStack_messages_inner_first (fmt : Formatter) (err : GoError)
    (last : errWithStack)
    (hlast : (layersOf err).getLast? = some last)
    (hsuf : ∀ i a b, (layersOf err)[i]? = some a → (layersOf err)[i + 1]? = some b →
      hasSuffix b.stack a.stack = some true) :
    ∃ m : List GoString,
      layerMessages ((layersOf err).map (fun a => a.err)) (rootOf err) = some m ∧
      PrintSingleStack fmt (some err)
        = some (stringsJoin (rootLine (rootOf err) m.getLast? ++ m.reverse) newline
            ++ fmt.verboseStack last.stack) := by
  refine ⟨(finalLayers (layersOf err) (rootOf err)).map (fun a => a.msg),
    layerMessages_eq (layersOf err) (layersOf_msg err) (rootOf err), ?_⟩
  have hne : layersOf err ≠ [] := by
    intro hc
    rw [hc] at hlast
    cases hlast
  have hpos : 0 < (layersOf err).length := List.length_pos.mpr hne
  have hck := singleStackLoop_true (layersOf err) hsuf ((layersOf err).length - 1) (by omega)
  exact PrintSingleStack_closed fmt err last hlast hck

/-- C12, witness of the amended claim: the chain of `loadConfig()`, whose output
is the lines `EOF`, `failed to open foo`, `failed to parse file`, `failed to
load config` followed by the innermost stack. -/
theorem PrintSingleStack_messages_inner_first_witness :
    PrintSingleStack sampleFormatter (some loadConfigChain)
      = some (stringsJoin
          ["EOF".toList, "failed to open foo".toList, "failed to parse file".toList,
            "failed to load config".toList] newline
          ++ sampleFormatter.verboseStack [0, 1, 3, 5]) := by
  obtain ⟨m, hm, h⟩ := PrintSingleStack_messages_inner_first sampleFormatter loadConfigChain
    loadConfigInnerLayer (by decide) (pairs_of_acceptedPairs _ (by decide))
  have hm2 : layerMessages ((layersOf loadConfigChain).map (fun a => a.err))
      (rootOf loadConfigChain)
      = some ["failed to load config".toList, "failed to parse file".toList,
          "failed to open foo".toList] := by
    decide
  rw [hm2] at hm
  cases hm
  rw [h]
  decide

/-- C13. The single printed stack is the longest: when the layers are non-empty
and every adjacent `hasSuffix` check passes, `PrintSingleStack` prints the stack
of the innermost layer, which has at least as many frames as the stack of every
layer of the chain. -/
theorem PrintSingleStack_prints_longest (fmt : Formatter) (err : GoError)
    (last : errWithStack)
    (hlast : (layersOf err).getLast? = some last)
    (hsuf : ∀ i a b, (layersOf err)[i]? = some a → (layersOf err)[i + 1]? = some b →
      hasSuffix b.stack a.stack = some true) :
    (∀ a ∈ layersOf err, a.stack.length ≤ last.stack.length) ∧
      ∃ lines : List GoString,
        PrintSingleStack fmt (some err)
          = some (stringsJoin lines newline ++ fmt.verboseStack last.stack) := by
  refine ⟨stack_length_le_last (layersOf err) last hlast hsuf, ?_⟩
  have hne : layersOf err ≠ [] := by
    intro hc
    rw [hc] at hlast
    cases hlast
  have hpos : 0 < (layersOf err).length := List.length_pos.mpr hne
  have hck := singleStackLoop_true (layersOf err) hsuf ((layersOf err).length - 1) (by omega)
  exact ⟨_, PrintSingleStack_closed fmt err last hlast hck⟩

/-- C13, witness: the three layers of the chain of `loadConfig()`. -/
theorem PrintSingleStack_prints_longest_witness :
    (∀ a ∈ layersOf loadConfigChain, a.stack.length ≤ loadConfigInnerLayer.stack.length) ∧
      ∃ lines : List GoString,
        PrintSingleStack sampleFormatter (some loadConfigChain)
          = some (stringsJoin lines newline
              ++ sampleFormatter.verboseStack loadConfigInnerLayer.stack) :=
  PrintSingleStack_prints_longest sampleFormatter loadConfigChain loadConfigInnerLayer
    (by decide) (pairs_of_acceptedPairs _ (by decide))

/-- C14. An empty outer stack is never a suffix: `hasSuffix(inner, [])` returns
false for every `inner`, the empty one included. -/
theorem hasSuffix_empty_outer (inner : StackTrace) : hasSuffix inner [] = some false := by
  have := hasSuffix_append_self inner []
  simpa using this

/-- C15. No out-of-range access: on every input both printers return normally,
no index or slice being out of range; when `hasSuffix(inner, outer)` is true,
`len(outer) ≤ len(inner)` and the slice `inner[0 : len(inner) - len(outer)]` is
in range; and the last element of an empty `stackErrs` is never read, its read
being a panic. -/
theorem no_out_of_range (fmt : Formatter) (err : Option GoError) (inner outer : StackTrace) :
    (∃ out, PrintSingleStack fmt err = some out) ∧
      (∃ out, PrintStackWithMessages fmt err = some out) ∧
      (∃ b, hasSuffix inner outer = some b) ∧
      (hasSuffix inner outer = some true →
        outer.length ≤ inner.length ∧
          ∃ t, slice? inner 0 ((inner.length : Int) - (outer.length : Int)) = some t) ∧
      index? ([] : List errWithStack) ((([] : List errWithStack).length : Int) - 1) = none := by
  refine ⟨PrintSingleStack_total fmt err, PrintStackWithMessages_total fmt err,
    hasSuffix_total inner outer, ?_, by simp [index?]⟩
  intro h
  have hle := hasSuffix_length_le inner outer h
  refine ⟨hle, inner.take (inner.length - outer.length), ?_⟩
  have e1 : ((inner.length : Int) - (outer.length : Int))
      = ((inner.length - outer.length : Nat) : Int) := by omega
  rw [e1]
  exact slice?_zero inner _ (Nat.sub_le _ _)

/-- C16. The exact meaning of `hasSuffix`: it returns true if and only if `outer`
is non-empty, `len(outer) ≤ len(inner)`, the last `len(outer) - 1` frames of
`inner` are the frames of `outer` after its first, and the frame of `inner`
aligned with the first frame of `outer` differs from it; it returns false
otherwise, and so `hasSuffix(s, s)` is false for every `s`. -/
theorem hasSuffix_exact (inner outer : StackTrace) :
    (hasSuffix inner outer = some true ↔
        outer ≠ [] ∧ outer.length ≤ inner.length ∧
          inner.drop (inner.length - outer.length + 1) = outer.tail ∧
          ∃ x y, inner[inner.length - outer.length]? = some x ∧ outer[0]? = some y ∧ x ≠ y) ∧
      (hasSuffix inner outer = some true ∨ hasSuffix inner outer = some false) ∧
      ∀ s : StackTrace, hasSuffix s s = some false := by
  refine ⟨⟨?_, ?_⟩, ?_, ?_⟩
  · intro h
    obtain ⟨p, x, y, t, hi, ho, hxy⟩ := (hasSuffix_true_iff inner outer).mp h
    subst hi ho
    have e1 : (p ++ x :: t).length - (y :: t).length = p.length := by simp
    refine ⟨by simp, by simp, ?_, x, y, ?_, by simp, hxy⟩
    · rw [e1]
      have e2 : p ++ x :: t = (p ++ [x]) ++ t := by simp
      rw [e2]
      have e3 : p.length + 1 = (p ++ [x]).length := by simp
      rw [e3, List.drop_left]
      rfl
    · rw [e1, List.getElem?_append_right (Nat.le_refl _)]
      simp
  · rintro ⟨hne, hle, hdrop, x, y, hx, hy, hxy⟩
    cases outer with
    | nil => exact absurd rfl hne
    | cons y1 t =>
      simp only [List.getElem?_cons_zero, Option.some.injEq] at hy
      subst hy
      simp only [List.tail_cons] at hdrop
      have hk : inner.length - (y1 :: t).length < inner.length := by
        rcases Nat.lt_or_ge (inner.length - (y1 :: t).length) inner.length with h1 | h1
        · exact h1
        · rw [List.getElem?_eq_none h1] at hx; cases hx
      have hsplit : inner = inner.take (inner.length - (y1 :: t).length) ++ x :: t := by
        have h1 := (List.take_append_drop (inner.length - (y1 :: t).length) inner).symm
        rw [List.drop_eq_getElem_cons hk, hdrop] at h1
        rw [List.getElem?_eq_getElem hk] at hx
        cases hx
        exact h1
      exact (hasSuffix_true_iff inner (y1 :: t)).mpr ⟨_, x, y1, t, hsplit, rfl, hxy⟩
  · obtain ⟨b, hb⟩ := hasSuffix_total inner outer
    cases b with
    | true => exact Or.inl hb
    | false => exact Or.inr hb
  · intro s
    have := hasSuffix_append_self [] s
    simpa using this

/-- C17. The terminal element is exempt from the alternation check: on a chain
in which every error that exposes `Cause()` is stack-bearing exactly at even
positions, the walk of `PrintStackWithMessages` keeps its layers, which are the
stack-bearing errors of the chain in outer-to-inner order, and a stack-bearing
last error without `Cause()` is the last of them. -/
theorem terminal_exempt_from_alternation (err : GoError)
    (h : ∀ k x, (chainOf err)[k]? = some x → x.isCauser = true →
      x.isStackTracer = decide (k % 2 = 0)) :
    alternateWalk (some err) = ((chainOf err).filterMap toLayer, rootOf err) ∧
      (alternateWalk (some err)).1.map (fun a => a.err)
        = (chainOf err).filter (fun x => x.isStackTracer) ∧
      ∀ (r : GoError) (s : StackTrace), rootOf err = some r → r.StackTrace? = some s →
        (alternateWalk (some err)).1.getLast? = some { err := r, msg := r.Error, stack := s } := by
  have halt : alternatesFrom true err = true := by
    apply alternatesFrom_of_index
    intro k x hk hc
    have := h k x hk hc
    by_cases hk2 : k % 2 = 0
    · simpa [hk2] using this
    · simpa [hk2] using this
  have hwalk : alternateWalk (some err) = (layersOf err, rootOf err) := by
    have := alternateLoop_eq err true [] halt
    simpa using this
  refine ⟨hwalk, ?_, ?_⟩
  · rw [hwalk]
    exact filterMap_toLayer_map_err (chainOf err)
  · intro r s hr hs
    rw [hwalk]
    exact layersOf_getLast?_of_root err r s hr hs

/-- C17, witness: in `stackRootChain` the last error, at position 1, has a stack
trace; the walk keeps both layers. -/
theorem terminal_exempt_from_alternation_witness :
    alternateWalk (some stackRootChain)
        = ((chainOf stackRootChain).filterMap toLayer, rootOf stackRootChain) ∧
      (alternateWalk (some stackRootChain)).1.map (fun a => a.err)
        = (chainOf stackRootChain).filter (fun x => x.isStackTracer) ∧
      ∀ (r : GoError) (s : StackTrace), rootOf stackRootChain = some r →
        r.StackTrace? = some s →
        (alternateWalk (some stackRootChain)).1.getLast?
          = some { err := r, msg := r.Error, stack := s } := by
  apply terminal_exempt_from_alternation stackRootChain
  intro k x hk hc
  have hC : chainOf stackRootChain = [stackRootChain, stackRootError] := by decide
  rw [hC] at hk
  cases k with
  | zero =>
    simp only [List.getElem?_cons_zero, Option.some.injEq] at hk
    subst hk
    decide
  | succ k =>
    cases k with
    | zero =>
      simp only [List.getElem?_cons_succ, List.getElem?_cons_zero, Option.some.injEq] at hk
      subst hk
      exact absurd hc (by decide)
    | succ k => simp at hk

/-- C18, counterexample: in `WithStack(New("EOF"))` the root has a stack trace
and no `Cause()`, and the message entries of both printers are `EOF`, `EOF`: the
text of the root message occurs twice among them. -/
theorem stack_bearing_root_text_twice :
    rootOf stackRootChain = some stackRootError ∧
      stackRootError.StackTrace? = some [0, 1, 2] ∧
      stackRootError.isCauser = false ∧
      layerMessages ((layersOf stackRootChain).map (fun a => a.err)) (some stackRootError)
        = some ["EOF".toList, "EOF".toList] ∧
      PrintSingleStack sampleFormatter (some stackRootChain)
        = some (stringsJoin ["EOF".toList, "EOF".toList] newline
            ++ sampleFormatter.verboseStack [0, 1, 2]) ∧
      PrintStackWithMessages sampleFormatter (some stackRootChain)
        = some (stringsJoin
            ["EOF".toList ++ sampleFormatter.verboseStack [0],
              "EOF".toList ++ sampleFormatter.verboseStack [3, 2]] newline) ∧
      (["EOF".toList, "EOF".toList] : List GoString).count stackRootError.Error = 2 := by
  decide

/-- C18, amended.  On a chain whose last error `r` has a stack trace and no
`Cause()`, the recomputed message of the innermost layer is `r.Error()`
unchanged and, in the coalesced form of `PrintSingleStack` and in the
interleaved form of `PrintStackWithMessages`, no separate root line is emitted:
the message entries are exactly `m_{n-1}, ..., m_0`, one for each layer, the
first being `r.Error()`.  The text `r.Error()` occurs exactly once among them
when no outer layer has it as recomputed message. -/
theorem stack_bearing_root_single_entry (fmt : Formatter) (err r : GoError) (s : StackTrace)
    (hroot : rootOf err = some r) (hs : r.StackTrace? = some s) :
    currErrMsg r r = some r.Error ∧
      ∃ ms : List GoString,
        layerMessages ((layersOf err).map (fun a => a.err)) (some r) = some (ms ++ [r.Error]) ∧
        ((∀ i a b, (layersOf err)[i]? = some a → (layersOf err)[i + 1]? = some b →
            hasSuffix b.stack a.stack = some true) →
          PrintSingleStack fmt (some err)
            = some (stringsJoin (r.Error :: ms.reverse) newline ++ fmt.verboseStack s)) ∧
        (alternatesFrom true err = true →
          PrintStackWithMessages fmt (some err)
            = some (stringsJoin
                (List.zipWith (fun mi ti => mi ++ fmt.verboseStack ti) (ms ++ [r.Error])
                  (trimmedStacks ((layersOf err).map (fun a => a.stack)))).reverse
                newline)) ∧
        (r.Error ∉ ms → (r.Error :: ms.reverse).count r.Error = 1) := by
  have hlast := layersOf_getLast?_of_root err r s hroot hs
  have hne : layersOf err ≠ [] := by
    intro hc
    rw [hc] at hlast
    cases hlast
  have hm := layerMessages_eq (layersOf err) (layersOf_msg err) (some r)
  have hmlast : ((finalLayers (layersOf err) (some r)).map (fun a => a.msg)).getLast?
      = some r.Error := by
    rw [getLast?_map_eq, finalLayers_getLast? (layersOf err) _ r hlast]
    simp [localMsg_self]
  have hsplit := List.dropLast_append_getLast? r.Error (by rw [hmlast]; rfl)
  refine ⟨by rw [currErrMsg_eq, localMsg_self],
    ((finalLayers (layersOf err) (some r)).map (fun a => a.msg)).dropLast, ?_, ?_, ?_, ?_⟩
  · rw [hsplit]
    exact hm
  · intro hsuf
    have hpos : 0 < (layersOf err).length := List.length_pos.mpr hne
    have hck := singleStackLoop_true (layersOf err) hsuf ((layersOf err).length - 1) (by omega)
    rw [PrintSingleStack_closed fmt err _ hlast hck, hroot, hmlast]
    have hrev : ((finalLayers (layersOf err) (some r)).map (fun a => a.msg)).reverse
        = r.Error :: (((finalLayers (layersOf err) (some r)).map
            (fun a => a.msg)).dropLast).reverse := by
      conv_lhs => rw [← hsplit]
      simp
    rw [hrev]
    simp [rootLine]
  · intro halt
    have hwalk : alternateWalk (some err) = (layersOf err, some r) := by
      have := alternateLoop_eq err true [] halt
      rw [hroot] at this
      simpa using this
    have hm2 := layerMessages_trimmed err (some r)
    rw [hm] at hm2
    have hm3 : (finalLayers (trimmedLayers (layersOf err)) (some r)).map (fun a => a.msg)
        = (finalLayers (layersOf err) (some r)).map (fun a => a.msg) :=
      (Option.some.inj hm2).symm
    rw [PrintStackWithMessages_closed fmt (some err) (layersOf err) (some r) hwalk hne, hm3,
      hmlast, hsplit]
    simp [rootLine]
  · intro hnot
    rw [List.count_cons_self, List.count_reverse, List.count_eq_zero_of_not_mem hnot]

/-- C18, witness of the amended claim: the chain `WithStack(New("EOF"))`, which
passes the single-stack check and alternates. -/
theorem stack_bearing_root_single_entry_witness :
    ∃ ms : List GoString,
      layerMessages ((layersOf stackRootChain).map (fun a => a.err)) (some stackRootError)
        = some (ms ++ [stackRootError.Error]) ∧
      PrintSingleStack sampleFormatter (some stackRootChain)
        = some (stringsJoin (stackRootError.Error :: ms.reverse) newline
            ++ sampleFormatter.verboseStack [0, 1, 2]) ∧
      PrintStackWithMessages sampleFormatter (some stackRootChain)
        = some (stringsJoin
            (List.zipWith (fun mi ti => mi ++ sampleFormatter.verboseStack ti)
              (ms ++ [stackRootError.Error])
              (trimmedStacks ((layersOf stackRootChain).map (fun a => a.stack)))).reverse
            newline) := by
  obtain ⟨_, ms, h1, h2, h3, _⟩ := stack_bearing_root_single_entry sampleFormatter
    stackRootChain stackRootError [0, 1, 2] (by decide) (by decide)
  exact ⟨ms, h1, h2 (pairs_of_acceptedPairs _ (by decide)), h3 (by decide)⟩

/-- C19. In-place trimming equals trimming against the original stacks: the
trimming loop returns, for every list of layers, the layers with unchanged
errors and messages, the frames of layer 0 as captured, and for every `i` the
frames of layer `i+1` without their last `len(orig_i)` frames when
`hasSuffix(orig_{i+1}, orig_i)` holds and as captured otherwise, `orig` being
the stacks as captured. -/
theorem trimLoop_uses_original_stacks (L : List errWithStack) :
    ∃ R : List errWithStack,
      trimLoop L (L.length - 1) = some R ∧
      R.map (fun a => a.stack) = trimmedStacks (L.map (fun a => a.stack)) ∧
      R.map (fun a => a.err) = L.map (fun a => a.err) ∧
      R.map (fun a => a.msg) = L.map (fun a => a.msg) ∧
      (R[0]?).map (fun a => a.stack) = (L[0]?).map (fun a => a.stack) ∧
      ∀ i a b, L[i]? = some a → L[i + 1]? = some b →
        (R[i + 1]?).map (fun c => c.stack)
          = some (if hasSuffix b.stack a.stack = some true then
              b.stack.take (b.stack.length - a.stack.length)
            else b.stack) := by
  refine ⟨trimmedLayers L, trimLoop_eq_all L, trimmedLayers_map_stack L,
    trimmedLayers_map_err L, trimmedLayers_map_msg L, ?_, ?_⟩
  · rw [trimmedLayers_getElem?_zero]
  · intro i a b ha hb
    rw [trimmedLayers_getElem?_succ L i a b ha hb]
    simp only [Option.map_some', trimLayer, trimAgainst]

end Printer
